import Mathlib

/-!
# dbmate: migration engine

A shallow embedding of `db.go`, `driver.go` and the ledger operations of the
drivers (`postgres.go`, `mysql.go`, `sqlite.go`), followed by theorems about it.

Conventions of the embedding:

* a Go `string` is a Lean `String`, read as its list of characters; offsets
  into a string count characters, and strings are compared character by
  character (on valid UTF-8 this is Go's byte-wise comparison);
* a Go `error` result is an `Option Error` (`none` is `nil`), a `(value, error)`
  result is an `Except Error value`;
* the file system and the database are explicit values passed to and returned
  by the functions that use them.
-/

namespace Dbmate

/-! ## Errors -/

/-- The errors the engine builds itself (`fmt.Errorf` and `panic` in `db.go`
and `driver.go`), told apart by kind and argument rather than by message
text, and `external` for every error handed back by the operating system or
the database client. -/
inductive Error where
  | nameRequired
  | noMigrationFiles
  | migrationsDirNotFound (dir : String)
  | migrationFileNotFound (ver : String)
  | nothingToRollback
  | lockTimeout (secs : Int)
  | unknownDriver (name : String)
  | goPanic (msg : String)
  | external (msg : String)
  deriving DecidableEq, Repr

deriving instance DecidableEq for Except

/-! ## Strings -/

/-- Lexicographic comparison `a ≤ b` of two character sequences, the order of
`sort.Strings`. -/
def lexLe : List Char → List Char → Bool
  | [], _ => true
  | _ :: _, [] => false
  | a :: as, b :: bs =>
    if a.toNat < b.toNat then true
    else if a.toNat = b.toNat then lexLe as bs
    else false

/-- The order `sort.Strings` sorts by. -/
def strLe (a b : String) : Prop := lexLe a.data b.data = true

instance strLeDecidable : DecidableRel strLe :=
  fun a b => inferInstanceAs (Decidable (lexLe a.data b.data = true))

/-- Model of `sort.Strings`: the ascending rearrangement of the list. -/
def sortStrings (l : List String) : List String := l.insertionSort strLe

/-- Model of the Go slice expression `s[b:e]`. -/
def slice (s : List Char) (b e : Nat) : List Char := (s.drop b).take (e - b)

/-! ## File store (`findMigrationFiles`, `findMigrationFile`, `migrationVersion`) -/

/-- One entry of a directory listing (`os.FileInfo`): its name and whether it
is a directory. -/
structure FileInfo where
  name : String
  isDir : Bool
  deriving DecidableEq, Repr

/-- The file system as the engine sees it: `ioutil.ReadDir` and
`ioutil.ReadFile`. -/
structure FileSystem where
  readDir : String → Except String (List FileInfo)
  readFile : String → Except String String

/-- Model of `filepath.Join(dir, name)` for a file name inside `dir`. -/
def filepathJoin (dir name : String) : String := dir ++ "/" ++ name

/-- The regular expression tail `.*\.sql$`, matched from the start of `cs`:
`cs` is some characters other than newline (`.` does not match a newline)
followed by `.sql` at the very end of the text. -/
def anyThenDotSql (cs : List Char) : Bool :=
  ".sql".data.isSuffixOf cs && !(cs.take (cs.length - 4)).contains '\n'

/-- The regular expression of `Migrate`, `^\d.*\.sql$`. -/
def migrateRegexp (name : String) : Bool :=
  match name.data with
  | [] => false
  | c :: rest => c.isDigit && anyThenDotSql rest

/-- The regular expression of `findMigrationFile`,
`^` ++ `regexp.QuoteMeta(ver)` ++ `.*\.sql$`: the name is `ver` taken literally,
then characters other than newline, then `.sql`. -/
def versionRegexp (ver : String) (name : String) : Bool :=
  ver.data.isPrefixOf name.data && anyThenDotSql (name.data.drop ver.data.length)

/-- Embedding of `findMigrationFiles`. -/
def findMigrationFiles (fs : FileSystem) (dir : String) (re : String → Bool) :
    Except Error (List String) :=
  match fs.readDir dir with
  | .error _ => .error (.migrationsDirNotFound dir)
  | .ok files =>
    let matches_ := (files.filter (fun file => !file.isDir && re file.name)).map (·.name)
    .ok (sortStrings matches_)

/-- Embedding of `findMigrationFile`. -/
def findMigrationFile (fs : FileSystem) (dir : String) (ver : String) : Except Error String :=
  if ver = "" then .error (.goPanic "migration version is required")
  else
    match findMigrationFiles fs dir (versionRegexp ver) with
    | .error err => .error err
    | .ok files =>
      match files with
      | [] => .error (.migrationFileNotFound ver)
      | file :: _ => .ok file

/-- Embedding of `migrationVersion`: the regular expression `^\d+` finds the
longest run of digits at the start of the file name. -/
def migrationVersion (filename : String) : String :=
  String.mk (filename.data.takeWhile Char.isDigit)

/-! ## Parser (`parseMigration`) -/

/-- A Go `map[string]string` as an association list with distinct keys. -/
abbrev StrMap := List (String × String)

/-- The assignment `m[k] = v`. -/
def StrMap.set (m : StrMap) (k v : String) : StrMap :=
  (k, v) :: m.filter (fun p => p.1 ≠ k)

/-- The lookup `m[k]`, which is the empty string for a missing key. -/
def StrMap.get (m : StrMap) (k : String) : String :=
  (m.lookup k).getD ""

/-- One element of `FindAllStringSubmatchIndex`: `[m0, m1]` is the whole match
and `[m2, m3]` the captured group. -/
structure SubmatchIndex where
  m0 : Nat
  m1 : Nat
  m2 : Nat
  m3 : Nat
  deriving DecidableEq, Repr

/-- The literal text of the separator. -/
def separatorPrefix : List Char := "-- migrate:".data

/-- Number of characters before the first newline of `cs`. -/
def lineLength (cs : List Char) : Nat := (cs.takeWhile (fun c => c ≠ '\n')).length

/-- All matches of `(?m)^-- migrate:(.*)$` in a text, scanning its suffix `cs`
that begins at offset `off`; `bol` says whether `off` is the start of a line.
A match begins at the start of a line that begins with the separator text and
runs to the end of that line; the group is the rest of the line. -/
def findAllSeparators (off : Nat) (bol : Bool) : List Char → List SubmatchIndex
  | [] => []
  | c :: cs =>
    let here :=
      if bol && separatorPrefix.isPrefixOf (c :: cs) then
        [SubmatchIndex.mk off (off + lineLength (c :: cs))
          (off + separatorPrefix.length) (off + lineLength (c :: cs))]
      else []
    here ++ findAllSeparators (off + 1) (c == '\n') cs

/-- The variables of the loop of `parseMigration`. -/
structure ParseState where
  migrations : StrMap
  direction : String
  beg : Nat

/-- One iteration of the loop of `parseMigration`. -/
def parseStep (contents : List Char) (st : ParseState) (m : SubmatchIndex) : ParseState :=
  let end_ := m.m0
  let migrations :=
    if st.direction ≠ "" then
      st.migrations.set st.direction (String.mk (slice contents st.beg end_))
    else st.migrations
  { migrations := migrations
    direction := String.mk (slice contents m.m2 m.m3)
    beg := m.m1 }

/-- The part of `parseMigration` after the file is read. -/
def parseContents (contents : String) : StrMap :=
  let matches_ := findAllSeparators 0 true contents.data
  let st := matches_.foldl (parseStep contents.data) ⟨[], "", 0⟩
  st.migrations.set st.direction (String.mk (contents.data.drop st.beg))

/-- Embedding of `parseMigration`. -/
def parseMigration (fs : FileSystem) (path : String) : Except Error StrMap :=
  match fs.readFile path with
  | .error msg => .error (.external msg)
  | .ok data => .ok (parseContents data)

/-! ## The database

The ledger is the table `schema_migrations`. `CreateMigrationsTable` declares
`version varchar(255) primary key` and later adds the column `project`, so a
row is a version with a project and no two rows share a version. The state
also records every call made on the connection, in order. The environment
decides from that history whether a call fails for a reason of its own
(connection loss, an SQL error in a migration body, ...).

Migration bodies are opaque SQL: the model records that a body was executed
and lets the environment decide whether it failed, and assumes that bodies do
not write to `schema_migrations` themselves. -/

/-- One row of `schema_migrations`. -/
structure Row where
  version : String
  project : String
  deriving DecidableEq, Repr

/-- A call on the database connection. -/
inductive Call where
  | open_
  | createTable
  | probeProject
  | addProjectColumn
  | selectMigrations (limit : Int) (project : String)
  | begin
  | commit
  | rollback
  | exec (query : String)
  | insertMigration (version : String) (project : String)
  | deleteMigration (version : String)
  | lock
  | unlock
  deriving DecidableEq, Repr

/-- State of the database as seen through one connection: the rows of
`schema_migrations`, the rows as they were when the open transaction (if any)
began, and the calls made so far (oldest first). -/
structure Database where
  ledger : List Row
  saved : Option (List Row)
  calls : List Call
  deriving DecidableEq, Repr

/-- What the goroutine that runs `driver.Lock` in `RunInLock` does: `Lock`
returns after some nanoseconds, or never. -/
inductive LockAttempt where
  | returns (nanos : Nat)
  | blocks
  deriving DecidableEq, Repr

/-- The environment of a run: the file system, which calls fail (given the
calls made before), how long `driver.Lock` takes, and which case `select`
takes when the lock and the timer are ready at the same instant. -/
structure Env where
  fs : FileSystem
  fault : List Call → Call → Option String
  lockAttempt : List Call → LockAttempt
  timerWinsTie : Bool

/-- Record a call. -/
def Database.log (s : Database) (c : Call) : Database :=
  { s with calls := s.calls ++ [c] }

/-- Make a call whose only effect is to succeed or fail. -/
def issue (env : Env) (c : Call) (s : Database) : Option Error × Database :=
  ((env.fault s.calls c).map Error.external, s.log c)

/-- The three drivers. -/
inductive Driver where
  | mysql
  | postgres
  | sqlite
  deriving DecidableEq, Repr

/-- Embedding of `GetDriver`. -/
def GetDriver (name : String) : Except Error Driver :=
  if name = "mysql" then .ok .mysql
  else if name = "postgres" ∨ name = "postgresql" then .ok .postgres
  else if name = "sqlite" ∨ name = "sqlite3" then .ok .sqlite
  else .error (.unknownDriver name)

/-- Embedding of `CreateMigrationsTable` (the same in the three drivers):
`create table if not exists`, then a probe of the column `project`, and
`alter table ... add column project` when the probe fails. The rows of an
existing table are kept; a row of a table that had no `project` column has the
default project afterwards, which is how the model represents it beforehand. -/
def CreateMigrationsTable (env : Env) (s : Database) : Option Error × Database :=
  match issue env .createTable s with
  | (some err, s1) => (some err, s1)
  | (none, s1) =>
    match issue env .probeProject s1 with
    | (some _, s2) => issue env .addProjectColumn s2
    | (none, s2) => (none, s2)

/-- Embedding of `SelectMigrations` (the same in the three drivers): the
versions of the rows of `project`, in descending order, cut to the first
`limit` when `limit ≥ 0`. The Go result is a `map[string]bool` whose keys are
these versions, each mapped to `true`; the model returns the keys. -/
def SelectMigrations (env : Env) (limit : Int) (project : String) (s : Database) :
    Except Error (List String) × Database :=
  let c := Call.selectMigrations limit project
  match env.fault s.calls c with
  | some msg => (.error (.external msg), s.log c)
  | none =>
    let versions := ((s.ledger.filter (fun r => r.project = project)).map (·.version))
    let desc := (sortStrings versions).reverse
    let rows := if limit ≥ 0 then desc.take limit.toNat else desc
    (.ok rows, s.log c)

/-- Embedding of `InsertMigration` (the same in the three drivers). The insert
fails when the environment says so and when a row with this version exists
already (`version` is the primary key). -/
def InsertMigration (env : Env) (version project : String) (s : Database) :
    Option Error × Database :=
  let c := Call.insertMigration version project
  match env.fault s.calls c with
  | some msg => (some (.external msg), s.log c)
  | none =>
    if version ∈ s.ledger.map (·.version) then
      (some (.external "duplicate key value violates unique constraint"), s.log c)
    else
      (none, { s.log c with ledger := s.ledger ++ [Row.mk version project] })

/-- Embedding of `DeleteMigration` (the same in the three drivers):
`delete from schema_migrations where version = $1`. -/
def DeleteMigration (env : Env) (version : String) (s : Database) : Option Error × Database :=
  let c := Call.deleteMigration version
  match env.fault s.calls c with
  | some msg => (some (.external msg), s.log c)
  | none => (none, { s.log c with ledger := s.ledger.filter (fun r => r.version ≠ version) })

/-- Model of `tx.Exec(query)` for a migration body. -/
def txExec (env : Env) (query : String) (s : Database) : Option Error × Database :=
  issue env (.exec query) s

/-- The three calls of `database/sql` that `doTransaction` uses, over a state
`σ`: `db.Begin`, `tx.Rollback` and `tx.Commit`. -/
structure SqlDB (σ : Type) where
  begin : σ → Option Error × σ
  rollback : σ → Option Error × σ
  commit : σ → Option Error × σ

/-- Embedding of `doTransaction`. -/
def doTransaction {σ : Type} (db : SqlDB σ) (txFunc : σ → Option Error × σ) (s : σ) :
    Option Error × σ :=
  match db.begin s with
  | (some err, s1) => (some err, s1)
  | (none, s1) =>
    match txFunc s1 with
    | (some err, s2) =>
      match db.rollback s2 with
      | (some err1, s3) => (some err1, s3)
      | (none, s3) => (some err, s3)
    | (none, s2) => db.commit s2

/-- `db.Begin` on the modelled database: remembers the rows. -/
def dbBegin (env : Env) (s : Database) : Option Error × Database :=
  match env.fault s.calls .begin with
  | some msg => (some (.external msg), s.log .begin)
  | none => (none, { s.log .begin with saved := some s.ledger })

/-- `tx.Rollback` on the modelled database: the rows are those remembered by
`Begin`, whether or not the client reports an error (a transaction that did
not commit leaves nothing behind). -/
def dbRollback (env : Env) (s : Database) : Option Error × Database :=
  ((env.fault s.calls .rollback).map Error.external,
    { s.log .rollback with ledger := s.saved.getD s.ledger, saved := none })

/-- `tx.Commit` on the modelled database: the rows written in the transaction
stay; when the commit fails they are dropped. -/
def dbCommit (env : Env) (s : Database) : Option Error × Database :=
  match env.fault s.calls .commit with
  | some msg =>
    (some (.external msg), { s.log .commit with ledger := s.saved.getD s.ledger, saved := none })
  | none => (none, { s.log .commit with saved := none })

/-- The modelled database as a `SqlDB`. -/
def sqlDB (env : Env) : SqlDB Database :=
  { begin := dbBegin env, rollback := dbRollback env, commit := dbCommit env }

/-! ## Lock coordinator (`RunInLock`) -/

/-- Wrap an integer into the range of a Go `int64`. -/
def wrapInt64 (x : Int) : Int := (x + 2 ^ 63) % 2 ^ 64 - 2 ^ 63

/-- Embedding of `Lock`: a no-op returning `nil` in the MySQL and SQLite
drivers, `select pg_advisory_lock` in the Postgres driver. The result is what
`Lock` returns; when it returns is `Env.lockAttempt`. -/
def Driver.Lock (driver : Driver) (env : Env) (s : Database) : Option Error × Database :=
  match driver with
  | .postgres => issue env .lock s
  | _ => (none, s.log .lock)

/-- Embedding of `Unlock`: a no-op in the MySQL and SQLite drivers; the
Postgres driver runs `select pg_advisory_unlock` and panics when it fails. -/
def Driver.Unlock (driver : Driver) (env : Env) (s : Database) : Option Error × Database :=
  match driver with
  | .postgres =>
    match issue env .unlock s with
    | (some (.external msg), s1) => (some (.goPanic msg), s1)
    | (r, s1) => (r, s1)
  | _ => (none, s.log .unlock)

/-- The case taken by the `select` of `RunInLock`. -/
inductive SelectCase where
  | lockChan
  | errChan (err : Error)
  | timeAfter
  deriving DecidableEq, Repr

/-- The race of `RunInLock`: the goroutine sends on `lockChan` or `errChan`
when `driver.Lock` returns, the timer fires after
`time.Second * time.Duration(timeoutSecs)` nanoseconds (a timer with a
duration of zero or less fires at once), and `select` takes the case that is
ready first. -/
def selectCase (env : Env) (timeoutSecs : Int) (history : List Call)
    (lockResult : Option Error) : SelectCase :=
  let deadline : Int := max 0 (wrapInt64 (1000000000 * wrapInt64 timeoutSecs))
  match env.lockAttempt history with
  | .blocks => .timeAfter
  | .returns nanos =>
    if (nanos : Int) < deadline ∨ ((nanos : Int) = deadline ∧ env.timerWinsTie = false) then
      match lockResult with
      | none => .lockChan
      | some err => .errChan err
    else .timeAfter

/-- Embedding of `RunInLock`. The deferred `Unlock` runs after `lockFunc`; if
it panics, the panic replaces the result. -/
def RunInLock (env : Env) (driver : Driver) (timeoutSecs : Int)
    (lockFunc : Database → Option Error × Database) (s : Database) : Option Error × Database :=
  match driver.Lock env s with
  | (lockResult, s1) =>
    match selectCase env timeoutSecs s.calls lockResult with
    | .lockChan =>
      match lockFunc s1 with
      | (result, s2) =>
        match driver.Unlock env s2 with
        | (some panic_, s3) => (some panic_, s3)
        | (none, s3) => (result, s3)
    | .errChan err => (some err, s1)
    | .timeAfter => (some (.lockTimeout timeoutSecs), s1)

/-! ## Engine (`Migrate`, `Rollback`) -/

/-- The fields of the Go struct `DB` that the engine reads: the scheme of
`DatabaseURL`, `MigrationsDir` and `Project`. -/
structure DB where
  scheme : String
  migrationsDir : String
  project : String
  deriving DecidableEq, Repr

/-- Embedding of `openDatabaseForMigration`. -/
def openDatabaseForMigration (env : Env) (db : DB) (s : Database) :
    Except Error Driver × Database :=
  match GetDriver db.scheme with
  | .error err => (.error err, s)
  | .ok drv =>
    match issue env .open_ s with
    | (some err, s1) => (.error err, s1)
    | (none, s1) =>
      match CreateMigrationsTable env s1 with
      | (some err, s2) => (.error err, s2)
      | (none, s2) => (.ok drv, s2)

/-- The function `Migrate` passes to `doTransaction`: run the up body, then
record the version. -/
def migrateTx (env : Env) (db : DB) (ver : String) (migration : StrMap) (tx : Database) :
    Option Error × Database :=
  match txExec env (migration.get "up") tx with
  | (some err, tx1) => (some err, tx1)
  | (none, tx1) => InsertMigration env ver db.project tx1

/-- The `for _, filename := range files` loop of `Migrate`. -/
def migrateFiles (env : Env) (db : DB) (alreadyApplied : List String) :
    List String → Database → Option Error × Database
  | [], s => (none, s)
  | filename :: rest, s =>
    let ver := migrationVersion filename
    if ver ∈ alreadyApplied then migrateFiles env db alreadyApplied rest s
    else
      match parseMigration env.fs (filepathJoin db.migrationsDir filename) with
      | .error err => (some err, s)
      | .ok migration =>
        match doTransaction (sqlDB env) (migrateTx env db ver migration) s with
        | (some err, s1) => (some err, s1)
        | (none, s1) => migrateFiles env db alreadyApplied rest s1

/-- The function `Migrate` passes to `RunInLock`. -/
def migrateLocked (env : Env) (db : DB) (files : List String) (s : Database) :
    Option Error × Database :=
  match SelectMigrations env (-1) db.project s with
  | (.error err, s1) => (some err, s1)
  | (.ok alreadyApplied, s1) => migrateFiles env db alreadyApplied files s1

/-- Embedding of `DB.Migrate`. -/
def Migrate (env : Env) (db : DB) (lockTimeoutSecs : Int) (s : Database) :
    Option Error × Database :=
  match findMigrationFiles env.fs db.migrationsDir migrateRegexp with
  | .error err => (some err, s)
  | .ok files =>
    if files.length = 0 then (some .noMigrationFiles, s)
    else
      match openDatabaseForMigration env db s with
      | (.error err, s1) => (some err, s1)
      | (.ok drv, s1) => RunInLock env drv lockTimeoutSecs (migrateLocked env db files) s1

/-- The function `Rollback` passes to `doTransaction`: run the down body,
then remove the version. -/
def rollbackTx (env : Env) (latest : String) (migration : StrMap) (tx : Database) :
    Option Error × Database :=
  match txExec env (migration.get "down") tx with
  | (some err, tx1) => (some err, tx1)
  | (none, tx1) => DeleteMigration env latest tx1

/-- The loop `for ver := range applied { latest = ver }` of `Rollback`. -/
def latestOf (applied : List String) : String :=
  applied.foldl (fun _ ver => ver) ""

/-- Embedding of `DB.Rollback`. -/
def Rollback (env : Env) (db : DB) (s : Database) : Option Error × Database :=
  match openDatabaseForMigration env db s with
  | (.error err, s1) => (some err, s1)
  | (.ok _, s1) =>
    match SelectMigrations env 1 db.project s1 with
    | (.error err, s2) => (some err, s2)
    | (.ok applied, s2) =>
      let latest := latestOf applied
      if latest = "" then (some .nothingToRollback, s2)
      else
        match findMigrationFile env.fs db.migrationsDir latest with
        | .error err => (some err, s2)
        | .ok filename =>
          match parseMigration env.fs (filepathJoin db.migrationsDir filename) with
          | .error err => (some err, s2)
          | .ok migration =>
            doTransaction (sqlDB env) (rollbackTx env latest migration) s2

/-! ## Observing `doTransaction` -/

/-- What `doTransaction` can do: begin, run the function it was given, roll
back, commit. -/
inductive TxEvent where
  | begin
  | body
  | rollback
  | commit
  deriving DecidableEq, Repr

/-- A database whose calls behave as those of `db` and are written down. -/
def SqlDB.traced {σ : Type} (db : SqlDB σ) : SqlDB (σ × List TxEvent) :=
  { begin := fun st => ((db.begin st.1).1, ((db.begin st.1).2, st.2 ++ [TxEvent.begin]))
    rollback := fun st => ((db.rollback st.1).1, ((db.rollback st.1).2, st.2 ++ [TxEvent.rollback]))
    commit := fun st => ((db.commit st.1).1, ((db.commit st.1).2, st.2 ++ [TxEvent.commit])) }

/-- A transaction function that behaves as `txFunc` and whose run is written
down. -/
def tracedBody {σ : Type} (txFunc : σ → Option Error × σ) (st : σ × List TxEvent) :
    Option Error × (σ × List TxEvent) :=
  ((txFunc st.1).1, ((txFunc st.1).2, st.2 ++ [TxEvent.body]))

/-! ## Specification vocabulary -/

/-- The entry can be returned by `findMigrationFile` for `ver`: it is not a
directory and its name is `ver`, then characters other than newline, then
`.sql`. -/
def IsVersionFile (ver : String) (file : FileInfo) : Prop :=
  file.isDir = false ∧
    ∃ mid : List Char, file.name.data = ver.data ++ mid ++ ".sql".data ∧ '\n' ∉ mid

/-- The lines of a text: the pieces between its newlines. -/
def splitLines : List Char → List (List Char)
  | [] => [[]]
  | c :: cs =>
    if c = '\n' then [] :: splitLines cs
    else
      match splitLines cs with
      | [] => [[c]]
      | line :: lines => (c :: line) :: lines

/-- A marker line is a line that begins with `-- migrate:`. -/
def IsMarkerLine (line : List Char) : Prop := separatorPrefix <+: line

/-- No line of the text is a marker line. -/
def HasNoMarkerLine (text : String) : Prop :=
  ∀ line ∈ splitLines text.data, ¬ IsMarkerLine line

/-- The text is empty or its last character is a newline. -/
def EndsLine (text : String) : Prop :=
  text = "" ∨ ∃ init : String, text = init ++ "\n"

/-- The migration bodies executed by a sequence of calls, in order. -/
def execsOf (calls : List Call) : List String :=
  calls.filterMap (fun c => match c with
    | .exec query => some query
    | _ => none)

/-- A call that executes a migration body or writes a ledger row. -/
def Call.isWrite : Call → Bool
  | .exec _ => true
  | .insertMigration _ _ => true
  | .deleteMigration _ => true
  | _ => false

/-- The step from `s` to `t` made only calls that execute no migration body
and write no ledger row, and left the ledger as it was. -/
def Quiet (s t : Database) : Prop :=
  t.ledger = s.ledger ∧ ∃ cs, t.calls = s.calls ++ cs ∧ ∀ c ∈ cs, c.isWrite = false

/-- The files pending for a project: those whose version the ledger does not
record for it. -/
def pendingFiles (db : DB) (s : Database) (files : List String) : List String :=
  files.filter (fun f => Row.mk (migrationVersion f) db.project ∉ s.ledger)

/-- The up body of a migration file (empty when the file cannot be read). -/
def upBody (env : Env) (db : DB) (filename : String) : String :=
  match parseMigration env.fs (filepathJoin db.migrationsDir filename) with
  | .ok migration => migration.get "up"
  | .error _ => ""

/-- The versions the ledger records for a project. -/
def recordedVersions (s : Database) (project : String) : List String :=
  (s.ledger.filter (fun r => r.project = project)).map (·.version)

/-- The version `g` is the lexically greatest recorded for the project. -/
def IsLatest (s : Database) (project : String) (g : String) : Prop :=
  g ∈ recordedVersions s project ∧ ∀ v ∈ recordedVersions s project, strLe v g

/-! ## Examples -/

/-- The configuration of the examples: migrations in `db`, project `p`. -/
def exampleDB : DB := ⟨"sqlite", "db", "p"⟩

/-- The database of the examples before any call: an empty ledger. -/
def emptyDatabase : Database := ⟨[], none, []⟩

/-- A file system for examples: one directory listing, every file with the
same text. -/
def exampleFS (entries : List FileInfo) (text : String) : FileSystem :=
  { readDir := fun _ => .ok entries, readFile := fun _ => .ok text }

/-- An environment for examples: the given file system, no failing call, a
lock that is granted at once. -/
def quietEnv (fs : FileSystem) : Env :=
  { fs := fs, fault := fun _ _ => none, lockAttempt := fun _ => .returns 0, timerWinsTie := false }

/-- A directory for examples: the migrations `01_a.sql` (up body `A`, down
body `B`) and `02_b.sql` (up body `C`, down body `D`), and a subdirectory. -/
def twoMigrationsFS : FileSystem :=
  { readDir := fun _ => .ok [⟨"02_b.sql", false⟩, ⟨"01_a.sql", false⟩, ⟨"03_notes.sql", true⟩]
    readFile := fun path =>
      if path = "db/01_a.sql" then .ok "-- migrate:up\nA\n-- migrate:down\nB\n"
      else .ok "-- migrate:up\nC\n-- migrate:down\nD\n" }

/-- A database for examples in which `01` is recorded for the project `p` and
`09` for another project. -/
def firstApplied : Database := ⟨[⟨"01", "p"⟩, ⟨"09", "other"⟩], none, []⟩

/-- A database for examples in which `01` and `02` are recorded for the
project `p` and `09` for another project. -/
def bothApplied : Database := ⟨[⟨"01", "p"⟩, ⟨"02", "p"⟩, ⟨"09", "other"⟩], none, []⟩

/-- A database for examples in which only `02` is recorded for the project
`p`, so that `01_a.sql` is pending. -/
def secondApplied : Database := ⟨[⟨"02", "p"⟩], none, []⟩

/-- The states of repeated rounds on the example migrations, starting with
`01` recorded: `Migrate` from an even state, `Rollback` from an odd one. -/
def roundTripStates : Nat → Database
  | 0 => firstApplied
  | n + 1 =>
    if n % 2 = 0 then (Migrate (quietEnv twoMigrationsFS) exampleDB 10 (roundTripStates n)).2
    else (Rollback (quietEnv twoMigrationsFS) exampleDB (roundTripStates n)).2

/-- A directory for examples with two migration files of the same version:
`1_a.sql` with the up body `A` and `1_b.sql` with the up body `B`. -/
def sameVersionFS : FileSystem :=
  { readDir := fun _ => .ok [⟨"1_a.sql", false⟩, ⟨"1_b.sql", false⟩]
    readFile := fun path =>
      if path = "db/1_a.sql" then .ok "-- migrate:up\nA\n" else .ok "-- migrate:up\nB\n" }

/-- An environment for examples in which exactly the up body `B` fails. -/
def bodyBFails : Env :=
  { fs := sameVersionFS
    fault := fun _ c => if c = .exec "\nB\n" then some "syntax error" else none
    lockAttempt := fun _ => .returns 0
    timerWinsTie := false }

/-- The name begins with a digit. -/
def beginsWithDigit (name : String) : Bool :=
  match name.data with
  | [] => false
  | c :: _ => c.isDigit

/-- The name ends in `.sql`. -/
def endsInDotSql (name : String) : Bool := ".sql".data.isSuffixOf name.data

/-- The entry is found by the discovery of `Migrate`: it is not a directory,
its name begins with a digit and ends in `.sql`, and the name contains no
newline. -/
def IsMigrationEntry (file : FileInfo) : Prop :=
  file.isDir = false ∧ beginsWithDigit file.name = true ∧ endsInDotSql file.name = true ∧
    '\n' ∉ file.name.data

/-- The duration of the timer of `RunInLock`, in nanoseconds:
`time.Second * time.Duration(timeoutSecs)` in `int64` arithmetic, and a timer
with a duration of zero or less fires at once. -/
def lockDeadline (timeoutSecs : Int) : Int :=
  max 0 (wrapInt64 (1000000000 * wrapInt64 timeoutSecs))

/-- Nanoseconds from the start of the `select` of `RunInLock` until it takes a
case: the moment `driver.Lock` returns when that comes first, the moment the
timer fires otherwise. -/
def selectElapsed (env : Env) (timeoutSecs : Int) (history : List Call) : Int :=
  match env.lockAttempt history with
  | .blocks => lockDeadline timeoutSecs
  | .returns nanos =>
    if (nanos : Int) < lockDeadline timeoutSecs ∨
        ((nanos : Int) = lockDeadline timeoutSecs ∧ env.timerWinsTie = false) then (nanos : Int)
    else lockDeadline timeoutSecs

/-- An environment for examples with the Postgres driver: the lock is
granted at once and the unlock statement fails. -/
def unlockFails : Env :=
  { fs := exampleFS [] ""
    fault := fun _ c => if c = .unlock then some "connection lost" else none
    lockAttempt := fun _ => .returns 0
    timerWinsTie := false }

/-- An environment for examples with the Postgres driver: `Lock` fails, two
seconds after it was called. -/
def lockFailsLate : Env :=
  { fs := exampleFS [] ""
    fault := fun _ c => if c = .lock then some "connection lost" else none
    lockAttempt := fun _ => .returns 2000000000
    timerWinsTie := false }

/-- An environment for examples in which `Lock` never returns. -/
def lockBlocks : Env :=
  { fs := exampleFS [] ""
    fault := fun _ _ => none
    lockAttempt := fun _ => .blocks
    timerWinsTie := false }

/-- A protected body for examples: it executes one statement and returns
nil. -/
def exampleBody (s : Database) : Option Error × Database :=
  (none, s.log (.exec "body"))

/-- A directory for examples with three migrations: `01_a.sql` (up body `A`),
`02_b.sql` (up body `B`) and `03_c.sql` (up body `C`). -/
def threeMigrationsFS : FileSystem :=
  { readDir := fun _ => .ok [⟨"01_a.sql", false⟩, ⟨"02_b.sql", false⟩, ⟨"03_c.sql", false⟩]
    readFile := fun path =>
      if path = "db/01_a.sql" then .ok "-- migrate:up\nA\n"
      else if path = "db/02_b.sql" then .ok "-- migrate:up\nB\n"
      else .ok "-- migrate:up\nC\n" }

/-- An environment for examples over the three migrations in which exactly
the up body `B` fails. -/
def secondBodyFails : Env :=
  { fs := threeMigrationsFS
    fault := fun _ c => if c = .exec "\nB\n" then some "syntax error" else none
    lockAttempt := fun _ => .returns 0
    timerWinsTie := false }

/-- An environment for examples over the three migrations in which the up
body `B` fails and the unlock statement fails too. -/
def secondBodyAndUnlockFail : Env :=
  { fs := threeMigrationsFS
    fault := fun _ c =>
      if c = .exec "\nB\n" then some "syntax error"
      else if c = .unlock then some "connection lost"
      else none
    lockAttempt := fun _ => .returns 0
    timerWinsTie := false }

/-! ## Theorems -/

/-- C8. `doTransaction`, for every database and every transaction function:
when `Begin` fails its error is returned and the function is never run; after
a successful `Begin`, if the function returns nil then `Commit` is called,
`Rollback` is not, and the result is that of `Commit`; if the function
returns an error then `Rollback` is called exactly once, `Commit` never, and
the result is the error of `Rollback` when it fails and the error of the
function otherwise. Writing the calls down changes neither the result nor the
final state. -/
theorem doTransaction_calls {σ : Type} (db : SqlDB σ) (txFunc : σ → Option Error × σ) (s : σ) :
    (doTransaction db.traced (tracedBody txFunc) (s, [])).1 = (doTransaction db txFunc s).1 ∧
    (doTransaction db.traced (tracedBody txFunc) (s, [])).2.1 = (doTransaction db txFunc s).2 ∧
    match db.begin s with
    | (some err, _) =>
      (doTransaction db txFunc s).1 = some err ∧
      (doTransaction db.traced (tracedBody txFunc) (s, [])).2.2 = [TxEvent.begin]
    | (none, s1) =>
      match txFunc s1 with
      | (none, s2) =>
        (doTransaction db txFunc s).1 = (db.commit s2).1 ∧
        (doTransaction db.traced (tracedBody txFunc) (s, [])).2.2 =
          [TxEvent.begin, TxEvent.body, TxEvent.commit]
      | (some err, s2) =>
        (doTransaction db txFunc s).1 = some (((db.rollback s2).1).getD err) ∧
        (doTransaction db.traced (tracedBody txFunc) (s, [])).2.2 =
          [TxEvent.begin, TxEvent.body, TxEvent.rollback] := by
  unfold doTransaction
  simp only [SqlDB.traced, tracedBody]
  rcases hb : db.begin s with ⟨_ | eb, s1⟩
  · rcases hf : txFunc s1 with ⟨_ | ef, s2⟩
    · simp [hf]
    · rcases hr : db.rollback s2 with ⟨_ | er, s3⟩ <;> simp [hf, hr]
  · simp

/-! ### The order of `sort.Strings` -/

theorem lexLe_refl (a : List Char) : lexLe a a = true := by
  induction a with
  | nil => rfl
  | cons c cs ih => simp [lexLe, ih]

theorem lexLe_total (a b : List Char) : lexLe a b = true ∨ lexLe b a = true := by
  induction a generalizing b with
  | nil => left; rfl
  | cons c cs ih =>
    cases b with
    | nil => right; rfl
    | cons d ds =>
      simp only [lexLe]
      rcases Nat.lt_trichotomy c.toNat d.toNat with h | h | h
      · left; simp [h]
      · rcases ih ds with h1 | h1
        · left; simp [h, h1]
        · right; simp [h, h1]
      · right; simp [h]

theorem lexLe_trans {a b c : List Char} (hab : lexLe a b = true) (hbc : lexLe b c = true) :
    lexLe a c = true := by
  induction a generalizing b c with
  | nil => rfl
  | cons x xs ih =>
    cases b with
    | nil => simp [lexLe] at hab
    | cons y ys =>
      cases c with
      | nil => simp [lexLe] at hbc
      | cons z zs =>
        simp only [lexLe] at hab hbc ⊢
        split_ifs at hab hbc ⊢ <;> first | rfl | omega | exact ih hab hbc

theorem lexLe_antisymm {a b : List Char} (hab : lexLe a b = true) (hba : lexLe b a = true) :
    a = b := by
  induction a generalizing b with
  | nil => cases b with
    | nil => rfl
    | cons d ds => simp [lexLe] at hba
  | cons c cs ih =>
    cases b with
    | nil => simp [lexLe] at hab
    | cons d ds =>
      simp only [lexLe] at hab hba
      have hcd : c.toNat = d.toNat := by
        split_ifs at hab hba <;> omega
      have hcd2 : c = d := by
        have := congrArg Char.ofNat hcd
        simpa using this
      subst hcd2
      simp only [lt_self_iff_false, if_false, if_true] at hab hba
      rw [ih hab hba]

theorem lexLe_take {a b : List Char} (n : Nat) (hab : lexLe a b = true) :
    lexLe (a.take n) (b.take n) = true := by
  induction a generalizing b n with
  | nil => cases n <;> rfl
  | cons c cs ih =>
    cases b with
    | nil => simp [lexLe] at hab
    | cons d ds =>
      cases n with
      | zero => rfl
      | succ n =>
        simp only [lexLe, List.take_succ_cons] at hab ⊢
        split_ifs at hab ⊢ <;> first | rfl | exact ih n hab

theorem strLe_antisymm {a b : String} (hab : strLe a b) (hba : strLe b a) : a = b :=
  String.ext (lexLe_antisymm hab hba)

theorem sortStrings_sorted (l : List String) : (sortStrings l).Sorted strLe := by
  haveI : IsTotal String strLe := ⟨fun a b => lexLe_total a.data b.data⟩
  haveI : IsTrans String strLe := ⟨fun _ _ _ h1 h2 => lexLe_trans h1 h2⟩
  exact List.sorted_insertionSort strLe l

theorem mem_sortStrings {l : List String} {x : String} : x ∈ sortStrings l ↔ x ∈ l :=
  (List.perm_insertionSort strLe l).mem_iff

/-! ### File store -/

theorem anyThenDotSql_iff (cs : List Char) :
    anyThenDotSql cs = true ↔ ∃ mid : List Char, cs = mid ++ ".sql".data ∧ '\n' ∉ mid := by
  unfold anyThenDotSql
  simp only [Bool.and_eq_true, List.isSuffixOf_iff_suffix, Bool.not_eq_true']
  have hlen : ".sql".data.length = 4 := rfl
  constructor
  · rintro ⟨⟨mid, hmid⟩, hnl⟩
    refine ⟨mid, hmid.symm, ?_⟩
    subst hmid
    simp [List.take_append_eq_append_take, hlen] at hnl
    exact hnl
  · rintro ⟨mid, rfl, hnl⟩
    refine ⟨⟨mid, rfl⟩, ?_⟩
    simp [List.take_append_eq_append_take, hlen]
    exact hnl

theorem versionRegexp_iff (ver name : String) :
    versionRegexp ver name = true ↔
      ∃ mid : List Char, name.data = ver.data ++ mid ++ ".sql".data ∧ '\n' ∉ mid := by
  unfold versionRegexp
  simp only [Bool.and_eq_true, List.isPrefixOf_iff_prefix, anyThenDotSql_iff]
  constructor
  · rintro ⟨⟨rest, hrest⟩, mid, hmid, hnl⟩
    refine ⟨mid, ?_, hnl⟩
    rw [← hrest, List.drop_left] at hmid
    rw [← hrest, hmid, List.append_assoc]
  · rintro ⟨mid, hname, hnl⟩
    refine ⟨⟨mid ++ ".sql".data, by rw [hname, List.append_assoc]⟩, mid, ?_, hnl⟩
    rw [hname, List.append_assoc, List.drop_left]

theorem mem_versionFiles (ver : String) (entries : List FileInfo) (name : String) :
    name ∈ (entries.filter (fun file => !file.isDir && versionRegexp ver file.name)).map (·.name) ↔
      ∃ file ∈ entries, IsVersionFile ver file ∧ file.name = name := by
  simp only [List.mem_map, List.mem_filter, Bool.and_eq_true, Bool.not_eq_true',
    versionRegexp_iff, IsVersionFile]
  constructor
  · rintro ⟨file, ⟨hmem, hdir, hre⟩, hname⟩
    exact ⟨file, hmem, ⟨hdir, hre⟩, hname⟩
  · rintro ⟨file, hmem, ⟨hdir, hre⟩, hname⟩
    exact ⟨file, ⟨hmem, hdir, hre⟩, hname⟩

theorem head_sortStrings_le {l : List String} {x : String} {rest : List String}
    (h : sortStrings l = x :: rest) {y : String} (hy : y ∈ l) : strLe x y := by
  have hs := sortStrings_sorted l
  rw [h] at hs
  have hy2 : y ∈ x :: rest := by rw [← h]; exact mem_sortStrings.mpr hy
  rcases List.mem_cons.mp hy2 with rfl | hy3
  · exact lexLe_refl _
  · exact List.rel_of_sorted_cons hs y hy3

theorem findMigrationFile_eq (fs : FileSystem) (dir ver : String)
    (entries : List FileInfo) (hver : ver ≠ "") (hdir : fs.readDir dir = .ok entries) :
    findMigrationFile fs dir ver =
      match sortStrings
        ((entries.filter (fun file => !file.isDir && versionRegexp ver file.name)).map (·.name)) with
      | [] => .error (.migrationFileNotFound ver)
      | file :: _ => .ok file := by
  unfold findMigrationFile findMigrationFiles
  simp only [hver, if_false, hdir]

/-- What `findMigrationFile` returns in a readable directory: the lexically
smallest name among the non-directory entries that match the pattern of the
version, and an error exactly when there is none. -/
theorem findMigrationFile_least (fs : FileSystem) (dir ver : String)
    (entries : List FileInfo) (hver : ver ≠ "") (hdir : fs.readDir dir = .ok entries) :
    (∀ name : String, findMigrationFile fs dir ver = .ok name ↔
      ((∃ file ∈ entries, IsVersionFile ver file ∧ file.name = name) ∧
        ∀ file ∈ entries, IsVersionFile ver file → strLe name file.name)) ∧
    ((∃ err, findMigrationFile fs dir ver = .error err) ↔
      ¬ ∃ file ∈ entries, IsVersionFile ver file) := by
  have hmem := mem_versionFiles ver entries
  have heq := findMigrationFile_eq fs dir ver entries hver hdir
  rcases hsort : sortStrings
      ((entries.filter (fun file => !file.isDir && versionRegexp ver file.name)).map (·.name))
    with _ | ⟨first, rest⟩
  all_goals rw [hsort] at heq
  all_goals simp only [heq]
  · have hnone : ∀ name : String, ¬ ∃ file ∈ entries, IsVersionFile ver file ∧ file.name = name := by
      intro name hex
      have h1 := mem_sortStrings.mpr ((hmem name).mpr hex)
      rw [hsort] at h1
      exact List.not_mem_nil _ h1
    constructor
    · intro name
      constructor
      · intro h; cases h
      · rintro ⟨hex, _⟩; exact absurd hex (hnone name)
    · constructor
      · rintro _ ⟨file, hf, hv⟩
        exact hnone file.name ⟨file, hf, hv, rfl⟩
      · intro _; exact ⟨_, rfl⟩
  · have hfirst : ∃ file ∈ entries, IsVersionFile ver file ∧ file.name = first := by
      apply (hmem first).mp
      apply mem_sortStrings.mp
      rw [hsort]; exact List.mem_cons_self _ _
    have hle : ∀ file ∈ entries, IsVersionFile ver file → strLe first file.name := by
      intro file hf hv
      exact head_sortStrings_le hsort ((hmem file.name).mpr ⟨file, hf, hv, rfl⟩)
    constructor
    · intro name
      constructor
      · intro h
        have : first = name := by injection h
        subst this
        exact ⟨hfirst, hle⟩
      · rintro ⟨⟨file, hf, hv, hname⟩, hmin⟩
        obtain ⟨file1, hf1, hv1, hname1⟩ := hfirst
        have h1 : strLe first name := by rw [← hname]; exact hle file hf hv
        have h2 : strLe name first := by rw [← hname1]; exact hmin file1 hf1 hv1
        rw [strLe_antisymm h1 h2]
    · constructor
      · rintro ⟨err, h⟩; cases h
      · intro hno
        obtain ⟨file1, hf1, hv1, _⟩ := hfirst
        exact absurd ⟨file1, hf1, hv1⟩ hno

/-- C10 (as amended). For every readable directory listing and every non-empty
version `ver`, taken literally: `findMigrationFile` returns `name` exactly when
`name` is the lexically smallest name of a non-directory entry of the form
`ver`, then characters other than newline, then `.sql`; it returns an error
exactly when there is no such entry; so with two or more such entries it
returns the lexically first and does not fail. -/
theorem findMigrationFile_smallest (fs : FileSystem) (dir ver : String)
    (entries : List FileInfo) (hver : ver ≠ "") (hdir : fs.readDir dir = .ok entries) :
    (∀ name : String, findMigrationFile fs dir ver = .ok name ↔
      ((∃ file ∈ entries, IsVersionFile ver file ∧ file.name = name) ∧
        ∀ file ∈ entries, IsVersionFile ver file → strLe name file.name)) ∧
    ((∃ err, findMigrationFile fs dir ver = .error err) ↔
      ¬ ∃ file ∈ entries, IsVersionFile ver file) :=
  findMigrationFile_least fs dir ver entries hver hdir

/-- Witness for C10: a directory with two files of version `1` and one
directory entry. -/
theorem findMigrationFile_smallest_witness :
    (∀ name : String,
      findMigrationFile (exampleFS [⟨"1_b.sql", false⟩, ⟨"1_a.sql", false⟩, ⟨"1_0", true⟩] "")
        "db" "1" = .ok name ↔
      ((∃ file ∈ [FileInfo.mk "1_b.sql" false, ⟨"1_a.sql", false⟩, ⟨"1_0", true⟩],
          IsVersionFile "1" file ∧ file.name = name) ∧
        ∀ file ∈ [FileInfo.mk "1_b.sql" false, ⟨"1_a.sql", false⟩, ⟨"1_0", true⟩],
          IsVersionFile "1" file → strLe name file.name)) ∧
    ((∃ err,
      findMigrationFile (exampleFS [⟨"1_b.sql", false⟩, ⟨"1_a.sql", false⟩, ⟨"1_0", true⟩] "")
        "db" "1" = .error err) ↔
      ¬ ∃ file ∈ [FileInfo.mk "1_b.sql" false, ⟨"1_a.sql", false⟩, ⟨"1_0", true⟩],
          IsVersionFile "1" file) :=
  findMigrationFile_smallest _ "db" "1" _ (by decide) rfl

/-- C10, counterexample to the claim as stated. The only entry of the
directory is the file `1.sql`; its name starts with `1.s` and ends in `.sql`,
yet `findMigrationFile` finds no file for the version `1.s`. Likewise the file
name `1`, newline, `.sql` starts with `1` and ends in `.sql` and is not found
for the version `1`. -/
theorem findMigrationFile_prefix_suffix_counterexample :
    ("1.s".data.isPrefixOf "1.sql".data = true ∧ ".sql".data.isSuffixOf "1.sql".data = true ∧
      findMigrationFile (exampleFS [⟨"1.sql", false⟩] "") "db" "1.s"
        = .error (.migrationFileNotFound "1.s")) ∧
    ("1".data.isPrefixOf "1\n.sql".data = true ∧ ".sql".data.isSuffixOf "1\n.sql".data = true ∧
      findMigrationFile (exampleFS [⟨"1\n.sql", false⟩] "") "db" "1"
        = .error (.migrationFileNotFound "1")) := by
  decide

/-! ### Parser -/

theorem splitLines_ne_nil (cs : List Char) : splitLines cs ≠ [] := by
  cases cs with
  | nil => simp [splitLines]
  | cons c cs =>
    simp only [splitLines]
    split_ifs
    · simp
    · split <;> simp

theorem splitLines_cons_newline (cs : List Char) :
    splitLines ('\n' :: cs) = [] :: splitLines cs := by
  simp [splitLines]

theorem splitLines_cons_other {c : Char} (hc : c ≠ '\n') (cs : List Char) :
    ∃ line lines, splitLines cs = line :: lines ∧
      splitLines (c :: cs) = (c :: line) :: lines := by
  rcases h : splitLines cs with _ | ⟨line, lines⟩
  · exact absurd h (splitLines_ne_nil cs)
  · exact ⟨line, lines, rfl, by simp [splitLines, hc, h]⟩

theorem head_splitLines (cs : List Char) :
    ∃ lines, splitLines cs = cs.takeWhile (fun c => c ≠ '\n') :: lines := by
  induction cs with
  | nil => exact ⟨[], rfl⟩
  | cons c cs ih =>
    by_cases hc : c = '\n'
    · subst hc
      exact ⟨splitLines cs, by simp [splitLines]⟩
    · obtain ⟨line, lines, h1, h2⟩ := splitLines_cons_other hc cs
      obtain ⟨lines2, h3⟩ := ih
      rw [h1] at h3
      injection h3 with h4 h5
      exact ⟨lines, by rw [h2, h4]; simp [List.takeWhile, hc]⟩

theorem prefix_takeWhile_of_prefix {p cs : List Char} (hp : '\n' ∉ p) (h : p <+: cs) :
    p <+: cs.takeWhile (fun c => c ≠ '\n') := by
  induction p generalizing cs with
  | nil => exact List.nil_prefix
  | cons q p ih =>
    obtain ⟨rest, hrest⟩ := h
    subst hrest
    have hq : q ≠ '\n' := fun hq => hp (by simp [hq])
    have hp2 : '\n' ∉ p := fun h2 => hp (List.mem_cons_of_mem _ h2)
    simp only [List.cons_append, List.takeWhile, hq, ne_eq, not_false_eq_true, decide_True]
    exact (List.cons_prefix_cons).mpr ⟨rfl, ih hp2 (List.prefix_append _ _)⟩

theorem separatorPrefix_no_newline : '\n' ∉ separatorPrefix := by decide

/-- The lines that a scan from a line start (`bol`) or from inside a line
can still match: all lines, or all but the first. -/
theorem findAllSeparators_eq_nil (off : Nat) (bol : Bool) (cs : List Char)
    (h : ∀ line ∈ (if bol then splitLines cs else (splitLines cs).tail), ¬ IsMarkerLine line) :
    findAllSeparators off bol cs = [] := by
  induction cs generalizing off bol with
  | nil => rfl
  | cons c cs ih =>
    simp only [findAllSeparators]
    have hrec : findAllSeparators (off + 1) (c == '\n') cs = [] := by
      apply ih
      intro line hline
      by_cases hc : c = '\n'
      · subst hc
        simp only [beq_self_eq_true, if_true] at hline
        apply h
        rw [splitLines_cons_newline]
        cases bol <;> simp [hline]
      · obtain ⟨l1, ls, h1, h2⟩ := splitLines_cons_other hc cs
        have hb : (c == '\n') = false := by simpa using hc
        simp only [hb, h1, List.tail_cons, Bool.false_eq_true, if_false] at hline
        apply h
        rw [h2]
        cases bol <;> simp [hline]
    rw [hrec, List.append_nil]
    split_ifs with hhere
    · exfalso
      simp only [Bool.and_eq_true, List.isPrefixOf_iff_prefix] at hhere
      obtain ⟨hbol, hpre⟩ := hhere
      subst hbol
      obtain ⟨lines, hl⟩ := head_splitLines (c :: cs)
      apply h (List.takeWhile (fun c => c ≠ '\n') (c :: cs))
      · simp [hl]
      · exact prefix_takeWhile_of_prefix separatorPrefix_no_newline hpre
    · rfl
theorem separatorPrefix_length : separatorPrefix.length = 11 := rfl

theorem slice_append_drop (pre cs : List Char) (b e : Nat) :
    slice (pre ++ cs) (pre.length + b) (pre.length + e) = slice cs b e := by
  unfold slice
  rw [List.drop_append, Nat.add_sub_add_left]

theorem slice_group_of_prefix {p cs : List Char} (hp : '\n' ∉ p) (h : p <+: cs) :
    p ++ slice cs p.length (lineLength cs) = cs.takeWhile (fun c => c ≠ '\n') := by
  obtain ⟨r, hr⟩ := prefix_takeWhile_of_prefix hp h
  have hpre : cs.takeWhile (fun c => c ≠ '\n') <+: cs := List.takeWhile_prefix _
  obtain ⟨rest, hrest⟩ := hpre
  have hlen : lineLength cs = p.length + r.length := by
    unfold lineLength; rw [← hr]; simp
  have hcs : cs = p ++ (r ++ rest) := by rw [← hrest, ← hr, List.append_assoc]
  rw [← hr]
  congr 1
  unfold slice
  rw [hlen, hcs, List.drop_left, Nat.add_sub_cancel_left, List.take_left]

theorem findAllSeparators_line (pre cs : List Char) (bol : Bool) (m : SubmatchIndex)
    (hm : m ∈ findAllSeparators pre.length bol cs) :
    separatorPrefix ++ slice (pre ++ cs) m.m2 m.m3 ∈
      (if bol then splitLines cs else (splitLines cs).tail) := by
  induction cs generalizing pre bol with
  | nil => simp [findAllSeparators] at hm
  | cons c cs ih =>
    simp only [findAllSeparators, List.mem_append] at hm
    rcases hm with hm | hm
    · split_ifs at hm with hhere
      · simp only [Bool.and_eq_true, List.isPrefixOf_iff_prefix] at hhere
        obtain ⟨hbol, hpre⟩ := hhere
        subst hbol
        simp only [List.mem_singleton] at hm
        subst hm
        simp only [if_true]
        rw [slice_append_drop, slice_group_of_prefix separatorPrefix_no_newline hpre]
        obtain ⟨lines, hl⟩ := head_splitLines (c :: cs)
        rw [hl]
        exact List.mem_cons_self _ _
      · simp at hm
    · have h1 := ih (pre ++ [c]) (c == '\n') (by simpa using hm)
      rw [List.append_assoc, List.singleton_append] at h1
      by_cases hc : c = '\n'
      · subst hc
        simp only [beq_self_eq_true, if_true] at h1
        rw [splitLines_cons_newline]
        cases bol <;> simp [h1]
      · obtain ⟨l1, ls, h2, h3⟩ := splitLines_cons_other hc cs
        have hb : (c == '\n') = false := by simpa using hc
        simp only [hb, h2, List.tail_cons, Bool.false_eq_true, if_false] at h1
        rw [h3]
        cases bol <;> simp [h1]

theorem isPrefixOf_append_newline {p : List Char} (hp : '\n' ∉ p) (x b : List Char) :
    p.isPrefixOf (x ++ '\n' :: b) = p.isPrefixOf (x ++ ['\n']) := by
  induction p generalizing x with
  | nil => simp
  | cons q p ih =>
    have hq : q ≠ '\n' := fun hq => hp (by simp [hq])
    have hp2 : '\n' ∉ p := fun h2 => hp (List.mem_cons_of_mem _ h2)
    have hqb : (q == '\n') = false := by simpa using hq
    cases x with
    | nil => simp only [List.nil_append, List.isPrefixOf_cons₂, hqb, Bool.false_and]
    | cons y x => simp only [List.cons_append, List.isPrefixOf_cons₂, ih hp2]

theorem lineLength_append_newline (x b : List Char) :
    lineLength (x ++ '\n' :: b) = lineLength (x ++ ['\n']) := by
  unfold lineLength
  induction x with
  | nil => simp
  | cons y x ih =>
    by_cases hy : y = '\n'
    · simp [hy]
    · simp only [List.cons_append, List.takeWhile_cons, ne_eq, hy, not_false_eq_true,
        decide_True, if_true, List.length_cons, ih]

/-- A scan of a text whose first part ends a line is the scan of the first
part followed by the scan of the rest from a line start. -/
theorem findAllSeparators_append (off : Nat) (bol : Bool) (a b : List Char) :
    findAllSeparators off bol (a ++ '\n' :: b) =
      findAllSeparators off bol (a ++ ['\n']) ++ findAllSeparators (off + (a.length + 1)) true b := by
  induction a generalizing off bol with
  | nil =>
    simp [findAllSeparators, List.isPrefixOf, separatorPrefix]
  | cons c a ih =>
    have h1 := isPrefixOf_append_newline separatorPrefix_no_newline (c :: a) b
    have h2 := lineLength_append_newline (c :: a) b
    rw [List.cons_append] at h1 h2
    rw [List.cons_append, List.cons_append]
    simp only [findAllSeparators]
    rw [ih, h1, h2, List.length_cons, List.append_assoc]
    congr 3
    omega

theorem findAllSeparators_shift (off : Nat) (bol : Bool) (cs : List Char) :
    findAllSeparators off bol cs =
      (findAllSeparators 0 bol cs).map
        (fun m => SubmatchIndex.mk (off + m.m0) (off + m.m1) (off + m.m2) (off + m.m3)) := by
  induction cs generalizing off bol with
  | nil => rfl
  | cons c cs ih =>
    simp only [findAllSeparators]
    rw [ih (off + 1), ih (0 + 1)]
    simp only [List.map_append, List.map_map]
    congr 1
    · split_ifs <;> simp
    · apply List.map_congr_left
      intro m _
      simp only [Function.comp]
      congr 1 <;> omega

theorem findAllSeparators_of_noMarker (off : Nat) (text : String) (h : HasNoMarkerLine text) :
    findAllSeparators off true text.data = [] :=
  findAllSeparators_eq_nil off true text.data (by simpa using h)

theorem findAllSeparators_skip (off : Nat) (text : String) (rest : List Char)
    (h : HasNoMarkerLine text) (hend : EndsLine text) :
    findAllSeparators off true (text.data ++ rest) =
      findAllSeparators (off + text.data.length) true rest := by
  rcases hend with rfl | ⟨init, rfl⟩
  · simp
  · have h1 := findAllSeparators_of_noMarker off _ h
    simp only [String.data_append] at h1 ⊢
    rw [List.append_assoc, List.singleton_append, findAllSeparators_append, h1]
    simp

theorem slice_append_left {a : List Char} (b : List Char) {s e : Nat} (he : e ≤ a.length) :
    slice (a ++ b) s e = slice a s e := by
  unfold slice
  by_cases hs : s ≤ a.length
  · rw [List.drop_append_of_le_length hs, List.take_append_of_le_length]
    simp; omega
  · have h1 : e - s = 0 := by omega
    simp [h1]

theorem findAllSeparators_up_down (U D : String) (hU : HasNoMarkerLine U) (hUend : EndsLine U)
    (hD : HasNoMarkerLine D) :
    findAllSeparators 0 true ("-- migrate:up\n" ++ U ++ "-- migrate:down\n" ++ D).data =
      [⟨0, 13, 11, 13⟩,
        ⟨14 + U.data.length, 14 + U.data.length + 15, 14 + U.data.length + 11,
          14 + U.data.length + 15⟩] := by
  have hdata : ("-- migrate:up\n" ++ U ++ "-- migrate:down\n" ++ D).data =
      "-- migrate:up".data ++ '\n' :: (U.data ++ ("-- migrate:down".data ++ '\n' :: D.data)) := by
    simp [String.data_append]
  have c1 : findAllSeparators 0 true ("-- migrate:up".data ++ ['\n']) = [⟨0, 13, 11, 13⟩] := by
    decide
  have c2 : findAllSeparators 0 true ("-- migrate:down".data ++ ['\n']) = [⟨0, 15, 11, 15⟩] := by
    decide
  have l1 : "-- migrate:up".data.length = 13 := rfl
  rw [hdata, findAllSeparators_append, c1, findAllSeparators_skip _ U _ hU hUend,
    findAllSeparators_append, findAllSeparators_of_noMarker _ D hD, findAllSeparators_shift, c2,
    l1]
  simp

theorem slice_eq_mid {T a b c : List Char} {s e : Nat} (hT : T = a ++ (b ++ c))
    (hs : s = a.length) (he : e = a.length + b.length) : slice T s e = b := by
  subst hT hs he
  unfold slice
  rw [List.drop_left, Nat.add_sub_cancel_left, List.take_left]

theorem drop_eq_right {T a b : List Char} {s : Nat} (hT : T = a ++ b) (hs : s = a.length) :
    T.drop s = b := by
  subst hT hs
  exact List.drop_left _ _

/-- The parse of an up marker, a body, a down marker and a body. -/
theorem parseContents_up_down (U D : String) (hU : HasNoMarkerLine U) (hUend : EndsLine U)
    (hD : HasNoMarkerLine D) :
    parseContents ("-- migrate:up\n" ++ U ++ "-- migrate:down\n" ++ D) =
      [("down", "\n" ++ D), ("up", "\n" ++ U)] := by
  unfold parseContents
  simp only [findAllSeparators_up_down U D hU hUend hD, List.foldl_cons, List.foldl_nil, parseStep]
  generalize hT : ("-- migrate:up\n" ++ U ++ "-- migrate:down\n" ++ D).data = T
  simp only [String.data_append] at hT
  have s1 : slice T 11 13 = "up".data :=
    slice_eq_mid (a := "-- migrate:".data)
      (c := '\n' :: (U.data ++ ("-- migrate:down\n".data ++ D.data)))
      (by rw [← hT]; simp) rfl rfl
  have s2 : slice T 13 (14 + U.data.length) = '\n' :: U.data :=
    slice_eq_mid (a := "-- migrate:up".data) (c := "-- migrate:down\n".data ++ D.data)
      (by rw [← hT]; simp) rfl (by simp; omega)
  have s3 : slice T (14 + U.data.length + 11) (14 + U.data.length + 15) = "down".data :=
    slice_eq_mid (a := "-- migrate:up\n".data ++ U.data ++ "-- migrate:".data)
      (c := '\n' :: D.data)
      (by rw [← hT]; simp) (by simp; omega) (by simp; omega)
  have s4 : T.drop (14 + U.data.length + 15) = '\n' :: D.data :=
    drop_eq_right (a := "-- migrate:up\n".data ++ U.data ++ "-- migrate:down".data)
      (by rw [← hT]; simp) (by simp; omega)
  rw [s1, s2, s3, s4]
  have hup : ("\n" ++ U) = String.mk ('\n' :: U.data) := by
    apply String.ext; simp [String.data_append]
  have hdown : ("\n" ++ D) = String.mk ('\n' :: D.data) := by
    apply String.ext; simp [String.data_append]
  rw [hup, hdown]
  simp [StrMap.set]

/-- C6 (as amended). For all SQL bodies `U` and `D` that contain no marker line,
`U` being empty or ending in a newline, the parse of the file
`-- migrate:up`, newline, `U`, `-- migrate:down`, newline, `D` succeeds and
yields the up body newline ++ `U` and the down body newline ++ `D`: a body starts
at the end of its marker line, so it begins with the newline that ends that
line. -/
theorem parseMigration_up_down (fs : FileSystem) (path : String) (U D : String)
    (hread : fs.readFile path = .ok ("-- migrate:up\n" ++ U ++ "-- migrate:down\n" ++ D))
    (hU : HasNoMarkerLine U) (hUend : EndsLine U) (hD : HasNoMarkerLine D) :
    ∃ m, parseMigration fs path = .ok m ∧ m.get "up" = "\n" ++ U ∧ m.get "down" = "\n" ++ D := by
  have hparse : parseMigration fs path =
      .ok (parseContents ("-- migrate:up\n" ++ U ++ "-- migrate:down\n" ++ D)) := by
    simp only [parseMigration, hread]
  refine ⟨_, hparse, ?_, ?_⟩
  · rw [parseContents_up_down U D hU hUend hD]
    simp [StrMap.get, List.lookup]
  · rw [parseContents_up_down U D hU hUend hD]
    simp [StrMap.get, List.lookup]

/-- Witness for C6: the file of the specification, whose bodies come out as
newline ++ `SELECT 1;` ++ newline and newline ++ `SELECT 2;` ++ newline. -/
theorem parseMigration_up_down_witness :
    HasNoMarkerLine "SELECT 1;\n" ∧ EndsLine "SELECT 1;\n" ∧ HasNoMarkerLine "SELECT 2;\n" ∧
    ∃ m, parseMigration
        (exampleFS [] ("-- migrate:up\n" ++ "SELECT 1;\n" ++ "-- migrate:down\n" ++ "SELECT 2;\n"))
        "db/1.sql" = .ok m ∧
      m.get "up" = "\n" ++ "SELECT 1;\n" ∧ m.get "down" = "\n" ++ "SELECT 2;\n" :=
  ⟨by unfold HasNoMarkerLine IsMarkerLine; decide, Or.inr ⟨"SELECT 1;", by decide⟩,
    by unfold HasNoMarkerLine IsMarkerLine; decide,
    parseMigration_up_down _ "db/1.sql" "SELECT 1;\n" "SELECT 2;\n" rfl
      (by unfold HasNoMarkerLine IsMarkerLine; decide) (Or.inr ⟨"SELECT 1;", by decide⟩)
      (by unfold HasNoMarkerLine IsMarkerLine; decide)⟩

/-- C6, counterexample to the claim as stated. The bodies `SELECT 1;` ++ newline
and `SELECT 2;` ++ newline contain no marker line, and the parse of the file of
the specification yields neither of them: the up body is newline ++ `SELECT 1;`
++ newline and the down body newline ++ `SELECT 2;` ++ newline. And when the
up body does not end in a newline, the down marker does not start a line and
the up body runs to the end of the file. -/
theorem parseMigration_up_down_counterexample :
    (HasNoMarkerLine "SELECT 1;\n" ∧ HasNoMarkerLine "SELECT 2;\n" ∧
      (parseContents "-- migrate:up\nSELECT 1;\n-- migrate:down\nSELECT 2;\n").get "up"
        = "\nSELECT 1;\n" ∧
      (parseContents "-- migrate:up\nSELECT 1;\n-- migrate:down\nSELECT 2;\n").get "down"
        = "\nSELECT 2;\n" ∧
      (parseContents "-- migrate:up\nSELECT 1;\n-- migrate:down\nSELECT 2;\n").get "up"
        ≠ "SELECT 1;\n" ∧
      (parseContents "-- migrate:up\nSELECT 1;\n-- migrate:down\nSELECT 2;\n").get "down"
        ≠ "SELECT 2;\n") ∧
    (HasNoMarkerLine "SELECT 1;" ∧
      (parseContents "-- migrate:up\nSELECT 1;-- migrate:down\nSELECT 2;\n").get "up"
        = "\nSELECT 1;-- migrate:down\nSELECT 2;\n" ∧
      (parseContents "-- migrate:up\nSELECT 1;-- migrate:down\nSELECT 2;\n").get "down" = "") := by
  unfold HasNoMarkerLine IsMarkerLine
  decide

theorem lookup_eq_none_of_no_key {m : StrMap} {k : String} (h : ∀ p ∈ m, p.1 ≠ k) :
    m.lookup k = none := by
  induction m with
  | nil => rfl
  | cons p m ih =>
    obtain ⟨a, b⟩ := p
    have ha : a ≠ k := h (a, b) (List.mem_cons_self _ _)
    have hka : (k == a) = false := by simpa using fun h2 : k = a => ha h2.symm
    rw [List.lookup_cons, hka]
    exact ih (fun p hp => h p (List.mem_cons_of_mem _ hp))

theorem keys_set {P : String → Prop} {m : StrMap} {k v : String}
    (hm : ∀ p ∈ m, P p.1) (hk : P k) : ∀ p ∈ m.set k v, P p.1 := by
  intro p hp
  simp only [StrMap.set, List.mem_cons, List.mem_filter] at hp
  rcases hp with rfl | ⟨hp, _⟩
  · exact hk
  · exact hm p hp

/-- Every key written by the loop of `parseMigration` is the text captured by
a match. -/
theorem parse_loop_keys (cs : List Char) (P : String → Prop)
    (hP : ∀ m ∈ findAllSeparators 0 true cs, P (String.mk (slice cs m.m2 m.m3)))
    (ms : List SubmatchIndex) (hms : ∀ m ∈ ms, m ∈ findAllSeparators 0 true cs)
    (st : ParseState) (hdir : st.direction = "" ∨ P st.direction)
    (hkeys : ∀ p ∈ st.migrations, P p.1) :
    ((ms.foldl (parseStep cs) st).direction = "" ∨ P (ms.foldl (parseStep cs) st).direction) ∧
      ∀ p ∈ (ms.foldl (parseStep cs) st).migrations, P p.1 := by
  induction ms generalizing st with
  | nil => exact ⟨hdir, hkeys⟩
  | cons m ms ih =>
    rw [List.foldl_cons]
    apply ih (fun m2 h2 => hms m2 (List.mem_cons_of_mem _ h2))
    · right
      exact hP m (hms m (List.mem_cons_self _ _))
    · simp only [parseStep]
      split_ifs with hne
      · rcases hdir with h0 | h1
        · exact absurd h0 hne
        · exact keys_set hkeys h1
      · exact hkeys

theorem parseContents_get_missing (text d : String) (hd : d ≠ "")
    (hline : separatorPrefix ++ d.data ∉ splitLines text.data) :
    (parseContents text).get d = "" := by
  have hP : ∀ m ∈ findAllSeparators 0 true text.data,
      separatorPrefix ++ (String.mk (slice text.data m.m2 m.m3)).data ∈ splitLines text.data := by
    intro m hm
    have := findAllSeparators_line [] text.data true m (by simpa using hm)
    simpa using this
  have hinv := parse_loop_keys text.data
    (fun k => separatorPrefix ++ k.data ∈ splitLines text.data) hP
    (findAllSeparators 0 true text.data) (fun _ h => h) ⟨[], "", 0⟩ (Or.inl rfl)
    (by intro p hp; cases hp)
  obtain ⟨hdir, hkeys⟩ := hinv
  unfold parseContents StrMap.get
  rw [lookup_eq_none_of_no_key]
  · rfl
  · intro p hp hpd
    simp only [StrMap.set, List.mem_cons, List.mem_filter] at hp
    rcases hp with rfl | ⟨hp, _⟩
    · simp only at hpd
      rcases hdir with h0 | h1
      · exact hd (hpd ▸ h0)
      · exact hline (hpd ▸ h1)
    · exact hline (hpd ▸ hkeys p hp)

theorem parseContents_no_marker (text : String) (h : HasNoMarkerLine text) :
    parseContents text = [("", text)] := by
  unfold parseContents
  rw [findAllSeparators_of_noMarker 0 text h]
  simp [StrMap.set]

/-- C7. For every file text and every non-empty direction word `d`: if no line
of the text is exactly `-- migrate:` ++ `d`, then `parseMigration` succeeds and
looking `d` up in its result yields the empty string. A text with no marker
line yields exactly one entry, under the empty key (its value is the whole
text), so both `up` and `down` are empty; a text with only an up marker is
the case `d` = `down`. -/
theorem parseMigration_missing_direction (fs : FileSystem) (path text d : String)
    (hread : fs.readFile path = .ok text) (hd : d ≠ "")
    (hline : separatorPrefix ++ d.data ∉ splitLines text.data) :
    ∃ m, parseMigration fs path = .ok m ∧ m.get d = "" ∧
      (HasNoMarkerLine text → m = [("", text)] ∧ m.get "up" = "" ∧ m.get "down" = "") := by
  have hparse : parseMigration fs path = .ok (parseContents text) := by
    simp only [parseMigration, hread]
  refine ⟨_, hparse, parseContents_get_missing text d hd hline, ?_⟩
  intro hno
  rw [parseContents_no_marker text hno]
  exact ⟨rfl, by simp [StrMap.get, List.lookup], by simp [StrMap.get, List.lookup]⟩

/-- Witness for C7: a file with only an up marker has an empty down body. -/
theorem parseMigration_missing_direction_witness :
    "down" ≠ "" ∧
    separatorPrefix ++ "down".data ∉ splitLines "-- migrate:up\nSELECT 1;\n".data ∧
    ∃ m, parseMigration (exampleFS [] "-- migrate:up\nSELECT 1;\n") "db/1.sql" = .ok m ∧
      m.get "down" = "" ∧
      (HasNoMarkerLine "-- migrate:up\nSELECT 1;\n" →
        m = [("", "-- migrate:up\nSELECT 1;\n")] ∧ m.get "up" = "" ∧ m.get "down" = "") :=
  ⟨by decide, by decide,
    parseMigration_missing_direction _ "db/1.sql" "-- migrate:up\nSELECT 1;\n" "down" rfl
      (by decide) (by decide)⟩

/-! ### Database calls -/

theorem Quiet.refl (s : Database) : Quiet s s :=
  ⟨rfl, [], by simp, by simp⟩

theorem Quiet.trans {s t u : Database} (h1 : Quiet s t) (h2 : Quiet t u) : Quiet s u := by
  obtain ⟨hl1, cs1, hc1, hw1⟩ := h1
  obtain ⟨hl2, cs2, hc2, hw2⟩ := h2
  refine ⟨hl2.trans hl1, cs1 ++ cs2, by rw [hc2, hc1, List.append_assoc], ?_⟩
  intro c hc
  rcases List.mem_append.mp hc with h | h
  · exact hw1 c h
  · exact hw2 c h

theorem Quiet.log (s : Database) (c : Call) (hc : c.isWrite = false) : Quiet s (s.log c) :=
  ⟨rfl, [c], rfl, by simpa using hc⟩

theorem issue_snd (env : Env) (c : Call) (s : Database) : (issue env c s).2 = s.log c := rfl

theorem CreateMigrationsTable_quiet (env : Env) (s : Database) :
    Quiet s (CreateMigrationsTable env s).2 := by
  have q1 : Quiet s (s.log .createTable) := Quiet.log s _ rfl
  have q2 : Quiet (s.log .createTable) ((s.log .createTable).log .probeProject) := Quiet.log _ _ rfl
  have q3 : Quiet ((s.log .createTable).log .probeProject)
      (((s.log .createTable).log .probeProject).log .addProjectColumn) := Quiet.log _ _ rfl
  unfold CreateMigrationsTable
  rcases h1 : env.fault s.calls .createTable with _ | m1
  · rcases h2 : env.fault (s.log .createTable).calls .probeProject with _ | m2
    · simp only [issue, h1, h2, Option.map]
      exact q1.trans q2
    · simp only [issue, h1, h2, Option.map]
      exact q1.trans (q2.trans q3)
  · simp only [issue, h1, Option.map]
    exact q1

theorem openDatabaseForMigration_quiet (env : Env) (db : DB) (s : Database) :
    Quiet s (openDatabaseForMigration env db s).2 := by
  have q1 : Quiet s (s.log .open_) := Quiet.log s _ rfl
  have q2 := CreateMigrationsTable_quiet env (s.log .open_)
  unfold openDatabaseForMigration
  rcases GetDriver db.scheme with e | drv
  · exact Quiet.refl s
  · rcases h1 : env.fault s.calls .open_ with _ | m1
    · simp only [issue, h1, Option.map]
      rcases h2 : CreateMigrationsTable env (s.log .open_) with ⟨_ | e2, s2⟩
      · rw [h2] at q2; exact q1.trans q2
      · rw [h2] at q2; exact q1.trans q2
    · simp only [issue, h1, Option.map]
      exact q1

theorem SelectMigrations_snd (env : Env) (limit : Int) (project : String) (s : Database) :
    (SelectMigrations env limit project s).2 = s.log (.selectMigrations limit project) := by
  unfold SelectMigrations
  rcases h1 : env.fault s.calls (.selectMigrations limit project) with _ | m1 <;> simp only [h1]

theorem SelectMigrations_quiet (env : Env) (limit : Int) (project : String) (s : Database) :
    Quiet s (SelectMigrations env limit project s).2 := by
  rw [SelectMigrations_snd]
  exact Quiet.log s _ rfl

theorem mem_recordedVersions {s : Database} {project v : String} :
    v ∈ recordedVersions s project ↔ Row.mk v project ∈ s.ledger := by
  unfold recordedVersions
  simp only [List.mem_map, List.mem_filter, decide_eq_true_eq]
  constructor
  · rintro ⟨r, ⟨hr, hp⟩, hv⟩
    obtain ⟨rv, rp⟩ := r
    simp only at hp hv
    subst hp hv
    exact hr
  · intro h
    exact ⟨_, ⟨h, rfl⟩, rfl⟩

/-- What `SelectMigrations` returns when it succeeds. -/
theorem SelectMigrations_ok {env : Env} {limit : Int} {project : String} {s : Database}
    {rows : List String} (h : (SelectMigrations env limit project s).1 = .ok rows) :
    rows = if limit ≥ 0 then ((sortStrings (recordedVersions s project)).reverse).take limit.toNat
      else (sortStrings (recordedVersions s project)).reverse := by
  unfold SelectMigrations at h
  rcases h1 : env.fault s.calls (.selectMigrations limit project) with _ | m1
  · simp only [h1, Except.ok.injEq] at h
    rw [← h]
    rfl
  · simp only [h1] at h
    cases h

theorem SelectMigrations_all {env : Env} {project : String} {s : Database}
    {rows : List String} (h : (SelectMigrations env (-1) project s).1 = .ok rows) (v : String) :
    v ∈ rows ↔ Row.mk v project ∈ s.ledger := by
  rw [SelectMigrations_ok h]
  simp [mem_sortStrings, mem_recordedVersions]

/-! ### Transactions -/

/-- A committed transaction: `Begin`, the function and `Commit` all succeeded. -/
theorem doTransaction_none {env : Env} {f : Database → Option Error × Database}
    {s s' : Database} (h : doTransaction (sqlDB env) f s = (none, s')) :
    ∃ s2, env.fault s.calls .begin = none ∧
      f { s.log .begin with saved := some s.ledger } = (none, s2) ∧
      env.fault s2.calls .commit = none ∧ s' = { s2.log .commit with saved := none } := by
  simp only [doTransaction, sqlDB, dbBegin, dbRollback, dbCommit] at h
  rcases hb : env.fault s.calls .begin with _ | mb
  · simp only [hb] at h
    rcases hf : f { s.log .begin with saved := some s.ledger } with ⟨_ | e, s2⟩
    · simp only [hf] at h
      rcases hc : env.fault s2.calls .commit with _ | mc
      · simp only [hc, Prod.mk.injEq, true_and] at h
        exact ⟨s2, rfl, rfl, hc, h.symm⟩
      · simp [hc] at h
    · simp only [hf] at h
      rcases hr : env.fault s2.calls .rollback with _ | mr <;> simp [hr] at h
  · simp [hb] at h

/-- A transaction leaves the ledger as it was unless it commits, provided its
function does not touch the rows remembered by `Begin`; its calls are `Begin`,
those of the function, and `Rollback` or `Commit`. -/
theorem doTransaction_some {env : Env} {f : Database → Option Error × Database}
    (hsaved : ∀ t, (f t).2.saved = t.saved) {s s' : Database} {e : Error}
    (h : doTransaction (sqlDB env) f s = (some e, s')) :
    s'.ledger = s.ledger ∧
      (s'.calls = s.calls ++ [.begin] ∨
        ∃ last, (last = Call.rollback ∨ last = Call.commit) ∧ s'.calls =
          (f { s.log .begin with saved := some s.ledger }).2.calls ++ [last]) := by
  simp only [doTransaction, sqlDB, dbBegin, dbRollback, dbCommit] at h
  rcases hb : env.fault s.calls .begin with _ | mb
  · simp only [hb] at h
    have hs := hsaved { s.log .begin with saved := some s.ledger }
    rcases hf : f { s.log .begin with saved := some s.ledger } with ⟨_ | e2, s2⟩
    · rw [hf] at hs
      simp only at hs
      simp only [hf] at h
      rcases hc : env.fault s2.calls .commit with _ | mc
      · simp [hc] at h
      · simp only [hc, Prod.mk.injEq] at h
        obtain ⟨_, rfl⟩ := h
        simp only [hs, Option.getD, Database.log, true_and]
        exact Or.inr ⟨.commit, Or.inr rfl, rfl⟩
    · rw [hf] at hs
      simp only at hs
      simp only [hf] at h
      have h2 : s' = { s2.log .rollback with ledger := s2.saved.getD s2.ledger, saved := none } := by
        rcases hr : env.fault s2.calls .rollback with _ | mr
        · simp only [hr, Option.map, Prod.mk.injEq] at h; exact h.2.symm
        · simp only [hr, Option.map, Prod.mk.injEq] at h; exact h.2.symm
      subst h2
      simp only [hs, Option.getD, Database.log, true_and]
      exact Or.inr ⟨.rollback, Or.inl rfl, rfl⟩
  · simp only [hb, Prod.mk.injEq] at h
    obtain ⟨_, rfl⟩ := h
    exact ⟨rfl, Or.inl rfl⟩

/-- What `doTransaction` returns when the function fails and the rollback
succeeds: the error of the function. -/
theorem doTransaction_rolled_back {env : Env} {f : Database → Option Error × Database}
    {s s2 : Database} {e : Error} (hb : env.fault s.calls .begin = none)
    (hf : f { s.log .begin with saved := some s.ledger } = (some e, s2))
    (hr : env.fault s2.calls .rollback = none) :
    doTransaction (sqlDB env) f s =
      (some e, { s2.log .rollback with ledger := s2.saved.getD s2.ledger, saved := none }) := by
  simp only [doTransaction, sqlDB, dbBegin, dbRollback, dbCommit, hb, hf, hr, Option.map]

theorem migrateTx_saved (env : Env) (db : DB) (ver : String) (m : StrMap) (t : Database) :
    (migrateTx env db ver m t).2.saved = t.saved := by
  simp only [migrateTx, txExec, issue, InsertMigration, Database.log]
  rcases he : env.fault t.calls (.exec (m.get "up")) with _ | me
  · simp only [Option.map]
    rcases hi : env.fault (t.calls ++ [Call.exec (m.get "up")])
        (.insertMigration ver db.project) with _ | mi
    · simp only
      split_ifs <;> rfl
    · rfl
  · rfl

theorem migrateTx_calls (env : Env) (db : DB) (ver : String) (m : StrMap) (t : Database) :
    (migrateTx env db ver m t).2.calls = t.calls ++ [.exec (m.get "up")] ∨
      (migrateTx env db ver m t).2.calls =
        t.calls ++ [.exec (m.get "up"), .insertMigration ver db.project] := by
  simp only [migrateTx, txExec, issue, InsertMigration, Database.log]
  rcases he : env.fault t.calls (.exec (m.get "up")) with _ | me
  · simp only [Option.map]
    rcases hi : env.fault (t.calls ++ [Call.exec (m.get "up")])
        (.insertMigration ver db.project) with _ | mi
    · simp only
      right
      split_ifs <;> simp
    · right; simp
  · left; rfl

theorem migrateTx_none {env : Env} {db : DB} {ver : String} {m : StrMap} {t t2 : Database}
    (h : migrateTx env db ver m t = (none, t2)) :
    ver ∉ t.ledger.map (·.version) ∧ t2.ledger = t.ledger ++ [Row.mk ver db.project] ∧
      t2.saved = t.saved ∧
      t2.calls = t.calls ++ [.exec (m.get "up"), .insertMigration ver db.project] := by
  simp only [migrateTx, txExec, issue, InsertMigration, Database.log] at h
  rcases he : env.fault t.calls (.exec (m.get "up")) with _ | me
  · simp only [he, Option.map] at h
    rcases hi : env.fault (t.calls ++ [Call.exec (m.get "up")])
        (.insertMigration ver db.project) with _ | mi
    · simp only [hi] at h
      split_ifs at h with hdup
      · simp at h
      · simp only [Prod.mk.injEq, true_and] at h
        subst h
        exact ⟨hdup, rfl, rfl, by simp⟩
    · simp [hi] at h
  · simp [he] at h

/-- The transaction of one pending file, committed: the version was in no row,
its row is added, and the calls are `Begin`, the up body, the insert and
`Commit`. -/
theorem migrate_transaction_none {env : Env} {db : DB} {ver : String} {m : StrMap}
    {s s' : Database} (h : doTransaction (sqlDB env) (migrateTx env db ver m) s = (none, s')) :
    ver ∉ s.ledger.map (·.version) ∧ s'.ledger = s.ledger ++ [Row.mk ver db.project] ∧
      s'.calls = s.calls ++
        [.begin, .exec (m.get "up"), .insertMigration ver db.project, .commit] := by
  obtain ⟨s2, _, hf, _, rfl⟩ := doTransaction_none h
  obtain ⟨h1, h2, _, h4⟩ := migrateTx_none hf
  exact ⟨h1, h2, by simp [Database.log, h4]⟩

/-- The transaction of one pending file, failed: the ledger is as before, and
the only calls are `Begin`, the up body, the insert of this version,
`Rollback` and `Commit`. -/
theorem migrate_transaction_some {env : Env} {db : DB} {ver : String} {m : StrMap}
    {s s' : Database} {e : Error}
    (h : doTransaction (sqlDB env) (migrateTx env db ver m) s = (some e, s')) :
    s'.ledger = s.ledger ∧ ∃ cs, s'.calls = s.calls ++ cs ∧
      ∀ c ∈ cs, c = .begin ∨ c = .exec (m.get "up") ∨ c = .insertMigration ver db.project ∨
        c = .rollback ∨ c = .commit := by
  obtain ⟨hl, hc⟩ := doTransaction_some (migrateTx_saved env db ver m) h
  refine ⟨hl, ?_⟩
  rcases hc with hc | ⟨last, hlast, hc⟩
  · exact ⟨[.begin], hc, by simp⟩
  · rcases migrateTx_calls env db ver m { s.log .begin with saved := some s.ledger } with h2 | h2
    · refine ⟨[.begin, .exec (m.get "up"), last], by rw [hc, h2]; simp [Database.log], ?_⟩
      intro c hcm
      simp only [List.mem_cons, List.mem_singleton, List.not_mem_nil, or_false] at hcm
      rcases hcm with rfl | rfl | rfl
      · simp
      · simp
      · rcases hlast with rfl | rfl <;> simp
    · refine ⟨[.begin, .exec (m.get "up"), .insertMigration ver db.project, last],
        by rw [hc, h2]; simp [Database.log], ?_⟩
      intro c hcm
      simp only [List.mem_cons, List.mem_singleton, List.not_mem_nil, or_false] at hcm
      rcases hcm with rfl | rfl | rfl | rfl
      · simp
      · simp
      · simp
      · rcases hlast with rfl | rfl <;> simp

/-! ### The loop of `Migrate` -/

theorem migrateFiles_cons_applied {env : Env} {db : DB} {applied : List String}
    {f : String} (rest : List String) (s : Database) (hf : migrationVersion f ∈ applied) :
    migrateFiles env db applied (f :: rest) s = migrateFiles env db applied rest s := by
  simp only [migrateFiles, hf, if_true]

theorem migrateFiles_cons_pending {env : Env} {db : DB} {applied : List String}
    {f : String} (rest : List String) (s : Database) (hf : migrationVersion f ∉ applied) :
    migrateFiles env db applied (f :: rest) s =
      match parseMigration env.fs (filepathJoin db.migrationsDir f) with
      | .error err => (some err, s)
      | .ok migration =>
        match doTransaction (sqlDB env) (migrateTx env db (migrationVersion f) migration) s with
        | (some err, s1) => (some err, s1)
        | (none, s1) => migrateFiles env db applied rest s1 := by
  simp only [migrateFiles, hf, if_false]

/-- A loop that ends without error: the rows of the pending files are added
to the ledger, in order, and the calls made are, for each pending file in
order, `Begin`, its up body, the insert of its version and `Commit`. -/
theorem migrateFiles_none {env : Env} {db : DB} {applied : List String} {files : List String}
    {s s' : Database} (h : migrateFiles env db applied files s = (none, s')) :
    s'.ledger = s.ledger ++
        (files.filter (fun f => migrationVersion f ∉ applied)).map
          (fun f => Row.mk (migrationVersion f) db.project) ∧
      s'.calls = s.calls ++
        (files.filter (fun f => migrationVersion f ∉ applied)).flatMap
          (fun f => [.begin, .exec (upBody env db f),
            .insertMigration (migrationVersion f) db.project, .commit]) := by
  induction files generalizing s with
  | nil =>
    simp only [migrateFiles, Prod.mk.injEq, true_and] at h
    subst h
    simp
  | cons f rest ih =>
    by_cases hf : migrationVersion f ∈ applied
    · rw [migrateFiles_cons_applied rest s hf] at h
      have := ih h
      simpa [List.filter_cons, hf] using this
    · rw [migrateFiles_cons_pending rest s hf] at h
      rcases hp : parseMigration env.fs (filepathJoin db.migrationsDir f) with e | m
      · simp [hp] at h
      · simp only [hp] at h
        rcases ht : doTransaction (sqlDB env) (migrateTx env db (migrationVersion f) m) s
          with ⟨_ | e, s1⟩
        · simp only [ht] at h
          obtain ⟨_, hl, hc⟩ := migrate_transaction_none ht
          obtain ⟨ihl, ihc⟩ := ih h
          have hup : upBody env db f = m.get "up" := by simp only [upBody, hp]
          constructor
          · rw [ihl, hl]
            simp [List.filter_cons, hf]
          · rw [ihc, hc]
            simp [List.filter_cons, hf, hup]
        · simp [ht] at h

theorem migrateFiles_all_applied {env : Env} {db : DB} {applied : List String}
    {files : List String} (s : Database) (h : ∀ f ∈ files, migrationVersion f ∈ applied) :
    migrateFiles env db applied files s = (none, s) := by
  induction files with
  | nil => rfl
  | cons f rest ih =>
    rw [migrateFiles_cons_applied rest s (h f (List.mem_cons_self _ _))]
    exact ih (fun g hg => h g (List.mem_cons_of_mem _ hg))

theorem migrateFiles_append {env : Env} {db : DB} {applied : List String}
    (pre rest : List String) (s : Database) :
    migrateFiles env db applied (pre ++ rest) s =
      match migrateFiles env db applied pre s with
      | (some err, s1) => (some err, s1)
      | (none, s1) => migrateFiles env db applied rest s1 := by
  induction pre generalizing s with
  | nil => simp [migrateFiles]
  | cons f pre ih =>
    by_cases hf : migrationVersion f ∈ applied
    · rw [List.cons_append, migrateFiles_cons_applied _ s hf, migrateFiles_cons_applied _ s hf]
      exact ih s
    · rw [List.cons_append, migrateFiles_cons_pending _ s hf, migrateFiles_cons_pending _ s hf]
      rcases parseMigration env.fs (filepathJoin db.migrationsDir f) with e | m
      · rfl
      · simp only
        rcases doTransaction (sqlDB env) (migrateTx env db (migrationVersion f) m) s
          with ⟨_ | e, s1⟩
        · exact ih s1
        · rfl

/-- The loop of `Migrate` at its first failure: the files before `k` are
processed without error (reaching `s1`), the transaction of the pending file
`k` begins, its up body or its ledger insert fails with `e`, and the rollback
succeeds. Then the loop returns `e`, the ledger is exactly what the files
before `k` left, and after `s1` the only calls are `Begin`, the up body of
`k`, the insert of its version and `Rollback`. -/
theorem migrateFiles_first_failure (env : Env) (db : DB) (applied pre post : List String)
    (k : String) (s s1 t s2 : Database) (m : StrMap) (e : Error)
    (hpre : migrateFiles env db applied pre s = (none, s1))
    (hk : migrationVersion k ∉ applied)
    (hparse : parseMigration env.fs (filepathJoin db.migrationsDir k) = .ok m)
    (hbegin : dbBegin env s1 = (none, t))
    (hfail : migrateTx env db (migrationVersion k) m t = (some e, s2))
    (hrollback : (dbRollback env s2).1 = none) :
    ∃ s', migrateFiles env db applied (pre ++ k :: post) s = (some e, s') ∧
      s'.ledger = s1.ledger ∧
      s'.ledger = s.ledger ++
        (pre.filter (fun f => migrationVersion f ∉ applied)).map
          (fun f => Row.mk (migrationVersion f) db.project) ∧
      ((∀ q, Row.mk (migrationVersion k) q ∉ s.ledger) →
        (∀ f ∈ pre, migrationVersion f ∉ applied → migrationVersion f ≠ migrationVersion k) →
        ∀ q, Row.mk (migrationVersion k) q ∉ s'.ledger) ∧
      ∃ cs, s'.calls = s1.calls ++ cs ∧
        ∀ c ∈ cs, c = .begin ∨ c = .exec (m.get "up") ∨
          c = .insertMigration (migrationVersion k) db.project ∨ c = .rollback := by
  have hb : env.fault s1.calls .begin = none ∧
      t = { s1.log .begin with saved := some s1.ledger } := by
    unfold dbBegin at hbegin
    rcases hbf : env.fault s1.calls .begin with _ | mb
    · simp only [hbf, Prod.mk.injEq, true_and] at hbegin
      exact ⟨rfl, hbegin.symm⟩
    · simp [hbf] at hbegin
  obtain ⟨hbf, rfl⟩ := hb
  have hr : env.fault s2.calls .rollback = none := by
    simp only [dbRollback] at hrollback
    rcases hrf : env.fault s2.calls .rollback with _ | mr
    · rfl
    · simp [hrf] at hrollback
  have htx := doTransaction_rolled_back hbf hfail hr
  have hsaved := migrateTx_saved env db (migrationVersion k) m
    { s1.log .begin with saved := some s1.ledger }
  rw [hfail] at hsaved
  simp only at hsaved
  have hcalls := migrateTx_calls env db (migrationVersion k) m
    { s1.log .begin with saved := some s1.ledger }
  rw [hfail] at hcalls
  simp only [Database.log] at hcalls
  obtain ⟨hpl, _⟩ := migrateFiles_none hpre
  have hled : ({ s2.log .rollback with ledger := s2.saved.getD s2.ledger, saved := none } :
      Database).ledger = s1.ledger := by
    simp [hsaved]
  refine ⟨_, ?_, hled, by rw [hled, hpl], ?_, ?_⟩
  · rw [migrateFiles_append, hpre]
    simp only
    rw [migrateFiles_cons_pending post s1 hk, hparse]
    simp only [htx]
  · intro hnone hne q hq
    rw [hled, hpl] at hq
    rcases List.mem_append.mp hq with h1 | h1
    · exact hnone q h1
    · simp only [List.mem_map, List.mem_filter, decide_eq_true_eq] at h1
      obtain ⟨f, ⟨hf, hfa⟩, hrow⟩ := h1
      injection hrow with hv _
      exact hne f hf hfa hv
  · rcases hcalls with hc | hc
    · refine ⟨[.begin, .exec (m.get "up"), .rollback], by simp [Database.log, hc], ?_⟩
      intro c hc2
      simp only [List.mem_cons, List.mem_singleton, List.not_mem_nil, or_false] at hc2
      rcases hc2 with rfl | rfl | rfl <;> simp
    · refine ⟨[.begin, .exec (m.get "up"),
        .insertMigration (migrationVersion k) db.project, .rollback],
        by simp [Database.log, hc], ?_⟩
      intro c hc2
      simp only [List.mem_cons, List.mem_singleton, List.not_mem_nil, or_false] at hc2
      rcases hc2 with rfl | rfl | rfl | rfl <;> simp

/-- C2, counterexample to the claim as stated. The directory holds `1_a.sql`
and `1_b.sql`, both of version `1` and both pending on the empty ledger, and
the up body of `1_b.sql` fails. `Migrate` applies `1_a.sql`, rolls back
`1_b.sql` and returns its failure, and the ledger then has a row for the
version of `1_b.sql`: the one recorded for `1_a.sql`. And with the Postgres
driver, when the up body of `02_b.sql` fails (it is rolled back) and the
unlock statement fails too, the outcome of `Migrate` is the panic of `Unlock`
and not the failure of the body. -/
theorem migrate_failure_row_counterexample :
    (Migrate bodyBFails exampleDB 10 emptyDatabase =
      (some (.external "syntax error"),
        ⟨[⟨"1", "p"⟩], none,
          [.open_, .createTable, .probeProject, .lock, .selectMigrations (-1) "p",
            .begin, .exec "\nA\n", .insertMigration "1" "p", .commit,
            .begin, .exec "\nB\n", .rollback, .unlock]⟩) ∧
      Row.mk (migrationVersion "1_b.sql") "p" ∈
        (Migrate bodyBFails exampleDB 10 emptyDatabase).2.ledger) ∧
    Migrate secondBodyAndUnlockFail ⟨"postgres", "db", "p"⟩ 10 emptyDatabase =
      (some (.goPanic "connection lost"),
        ⟨[⟨"01", "p"⟩], none,
          [.open_, .createTable, .probeProject, .lock, .selectMigrations (-1) "p",
            .begin, .exec "\nA\n", .insertMigration "01" "p", .commit,
            .begin, .exec "\nB\n", .rollback, .unlock]⟩) := by
  decide

/-! ### `Migrate` -/

theorem Driver.Lock_snd (driver : Driver) (env : Env) (s : Database) :
    (driver.Lock env s).2 = s.log .lock := by
  cases driver <;> rfl

theorem Driver.Unlock_snd (driver : Driver) (env : Env) (s : Database) :
    (driver.Unlock env s).2 = s.log .unlock := by
  cases driver
  · rfl
  · simp only [Driver.Unlock, issue]
    rcases env.fault s.calls .unlock with _ | m <;> rfl
  · rfl

theorem execsOf_append (a b : List Call) : execsOf (a ++ b) = execsOf a ++ execsOf b := by
  simp [execsOf, List.filterMap_append]

theorem execsOf_of_no_write {cs : List Call} (h : ∀ c ∈ cs, c.isWrite = false) :
    execsOf cs = [] := by
  induction cs with
  | nil => rfl
  | cons c cs ih =>
    have hc := h c (List.mem_cons_self _ _)
    have ih2 := ih (fun d hd => h d (List.mem_cons_of_mem _ hd))
    cases c <;> simp_all [execsOf, Call.isWrite]

theorem execsOf_quiet {s t : Database} (h : Quiet s t) : execsOf t.calls = execsOf s.calls := by
  obtain ⟨_, cs, hc, hw⟩ := h
  rw [hc, execsOf_append, execsOf_of_no_write hw, List.append_nil]

/-- The anatomy of a run of `Migrate`: either it ends before the loop, with an
error and without executing or writing anything, or it reaches the loop with
the discovered files and the versions the ledger records for the project, and
what follows the loop (the unlock) executes and writes nothing. -/
theorem Migrate_run {env : Env} {db : DB} {secs : Int} {s s' : Database} {r : Option Error}
    (h : Migrate env db secs s = (r, s')) :
    (r ≠ none ∧ Quiet s s') ∨
    ∃ files applied sA r0 sC,
      findMigrationFiles env.fs db.migrationsDir migrateRegexp = .ok files ∧
      Quiet s sA ∧ (∀ v, v ∈ applied ↔ Row.mk v db.project ∈ s.ledger) ∧
      migrateFiles env db applied files sA = (r0, sC) ∧ Quiet sC s' ∧ (r = none → r0 = none) := by
  unfold Migrate at h
  rcases hfiles : findMigrationFiles env.fs db.migrationsDir migrateRegexp with e | files
  · simp only [hfiles, Prod.mk.injEq] at h
    obtain ⟨rfl, rfl⟩ := h
    exact Or.inl ⟨by simp, Quiet.refl s⟩
  · simp only [hfiles] at h
    split_ifs at h with hlen
    · simp only [Prod.mk.injEq] at h
      obtain ⟨rfl, rfl⟩ := h
      exact Or.inl ⟨by simp, Quiet.refl s⟩
    · have qopen := openDatabaseForMigration_quiet env db s
      rcases hopen : openDatabaseForMigration env db s with ⟨e | drv, s1⟩
      · simp only [hopen, Prod.mk.injEq] at h
        obtain ⟨rfl, rfl⟩ := h
        rw [hopen] at qopen
        exact Or.inl ⟨by simp, qopen⟩
      · rw [hopen] at qopen
        simp only [hopen, RunInLock] at h
        have hlock := Driver.Lock_snd drv env s1
        have qlock : Quiet s1 (drv.Lock env s1).2 := by rw [hlock]; exact Quiet.log _ _ rfl
        rcases hcase : selectCase env secs s1.calls (drv.Lock env s1).1 with _ | e | _
        · simp only [hcase, migrateLocked] at h
          have qsel := SelectMigrations_quiet env (-1) db.project (drv.Lock env s1).2
          rcases hsel : SelectMigrations env (-1) db.project (drv.Lock env s1).2
            with ⟨e | applied, s3⟩
          · rw [hsel] at qsel
            simp only [hsel] at h
            have hun := Driver.Unlock_snd drv env s3
            have qun : Quiet s3 (drv.Unlock env s3).2 := by rw [hun]; exact Quiet.log _ _ rfl
            rcases hu : drv.Unlock env s3 with ⟨_ | pe, s4⟩
            · rw [hu] at qun
              simp only [hu, Prod.mk.injEq] at h
              obtain ⟨rfl, rfl⟩ := h
              exact Or.inl ⟨by simp, qopen.trans (qlock.trans (qsel.trans qun))⟩
            · rw [hu] at qun
              simp only [hu, Prod.mk.injEq] at h
              obtain ⟨rfl, rfl⟩ := h
              exact Or.inl ⟨by simp, qopen.trans (qlock.trans (qsel.trans qun))⟩
          · rw [hsel] at qsel
            simp only [hsel] at h
            have happlied : ∀ v, v ∈ applied ↔ Row.mk v db.project ∈ s.ledger := by
              intro v
              have h1 := @SelectMigrations_all env db.project (drv.Lock env s1).2 applied
                (by rw [hsel]) v
              rw [h1, qlock.1, qopen.1]
            rcases hloop : migrateFiles env db applied files s3 with ⟨r0, sC⟩
            simp only [hloop] at h
            have hun := Driver.Unlock_snd drv env sC
            have qun : Quiet sC (drv.Unlock env sC).2 := by rw [hun]; exact Quiet.log _ _ rfl
            refine Or.inr ⟨files, applied, s3, r0, sC, rfl, qopen.trans (qlock.trans qsel),
              happlied, hloop, ?_, ?_⟩
            · rcases hu : drv.Unlock env sC with ⟨_ | pe, s4⟩
              · rw [hu] at qun
                simp only [hu, Prod.mk.injEq] at h
                rw [← h.2]; exact qun
              · rw [hu] at qun
                simp only [hu, Prod.mk.injEq] at h
                rw [← h.2]; exact qun
            · intro hr
              rcases hu : drv.Unlock env sC with ⟨_ | pe, s4⟩
              · simp only [hu, Prod.mk.injEq] at h
                rw [h.1, hr]
              · simp only [hu, Prod.mk.injEq] at h
                rw [hr] at h
                simp at h
        · simp only [hcase, Prod.mk.injEq] at h
          obtain ⟨rfl, rfl⟩ := h
          exact Or.inl ⟨by simp, qopen.trans qlock⟩
        · simp only [hcase, Prod.mk.injEq] at h
          obtain ⟨rfl, rfl⟩ := h
          exact Or.inl ⟨by simp, qopen.trans qlock⟩

theorem takeWhile_eq_take_length (p : Char → Bool) (l : List Char) :
    l.takeWhile p = l.take (l.takeWhile p).length := by
  induction l with
  | nil => rfl
  | cons c l ih =>
    by_cases hc : p c = true
    · simp only [List.takeWhile_cons, hc, if_true, List.length_cons, List.take_succ_cons]
      rw [← ih]
    · simp [List.takeWhile_cons, hc]

/-- Among file names with version prefixes of the same width, the order of
the names is the order of the versions. -/
theorem migrationVersion_mono {f g : String} (hfg : strLe f g)
    (hw : (migrationVersion f).length = (migrationVersion g).length) :
    strLe (migrationVersion f) (migrationVersion g) := by
  unfold strLe migrationVersion at *
  simp only [String.length] at hw
  rw [takeWhile_eq_take_length _ f.data, takeWhile_eq_take_length _ g.data, hw]
  exact lexLe_take _ hfg

theorem findMigrationFiles_sorted {fs : FileSystem} {dir : String} {re : String → Bool}
    {files : List String} (h : findMigrationFiles fs dir re = .ok files) :
    files.Pairwise strLe := by
  unfold findMigrationFiles at h
  rcases hd : fs.readDir dir with e | entries
  · simp [hd] at h
  · simp only [hd, Except.ok.injEq] at h
    rw [← h]
    exact sortStrings_sorted _

theorem pendingFiles_eq {db : DB} {s : Database} {applied : List String} (files : List String)
    (h : ∀ v, v ∈ applied ↔ Row.mk v db.project ∈ s.ledger) :
    files.filter (fun f => migrationVersion f ∉ applied) = pendingFiles db s files := by
  unfold pendingFiles
  apply List.filter_congr
  intro f _
  simp only [h]

theorem execsOf_flatMap_tx (env : Env) (db : DB) (files : List String) :
    execsOf (files.flatMap (fun f => [Call.begin, .exec (upBody env db f),
      .insertMigration (migrationVersion f) db.project, .commit])) = files.map (upBody env db) := by
  induction files with
  | nil => rfl
  | cons f files ih =>
    rw [List.flatMap_cons, execsOf_append, ih]
    simp [execsOf]

/-- A run of `Migrate` that returns nil, from the ledger of `s`: the rows of
the pending files were added, and the bodies executed are the up bodies of the
pending files in the order of discovery. -/
theorem Migrate_none {env : Env} {db : DB} {secs : Int} {s s' : Database}
    (h : Migrate env db secs s = (none, s')) :
    ∃ files, findMigrationFiles env.fs db.migrationsDir migrateRegexp = .ok files ∧
      s'.ledger = s.ledger ++
        (pendingFiles db s files).map (fun f => Row.mk (migrationVersion f) db.project) ∧
      execsOf s'.calls = execsOf s.calls ++ (pendingFiles db s files).map (upBody env db) := by
  rcases Migrate_run h with ⟨hne, _⟩ | ⟨files, applied, sA, r0, sC, hfiles, qA, happ, hloop, qC, hr⟩
  · exact absurd rfl hne
  · have hr0 := hr rfl
    subst hr0
    obtain ⟨hl, hc⟩ := migrateFiles_none hloop
    rw [pendingFiles_eq files happ] at hl hc
    refine ⟨files, hfiles, ?_, ?_⟩
    · rw [qC.1, hl, qA.1]
    · rw [execsOf_quiet qC, hc, execsOf_append, execsOf_flatMap_tx, execsOf_quiet qA]

/-- C1. Let the discovered migration files have version prefixes of one width
and pairwise distinct (strictly increasing, zero-padded versions), and let
every version the ledger records for the project be the version of a file.
For every run of `Migrate` that returns nil (every up body, every ledger
insert and every other call succeeded): the bodies executed are exactly the up
bodies of the pending files, in the order of the files, which is strictly
ascending in the version; and afterwards the versions the ledger records for
the project are exactly the versions of the files. -/
theorem migrate_applies_pending_ascending (env : Env) (db : DB) (secs : Int) (s s' : Database)
    (files : List String)
    (hfiles : findMigrationFiles env.fs db.migrationsDir migrateRegexp = .ok files)
    (hwidth : ∀ f ∈ files, ∀ g ∈ files,
      (migrationVersion f).length = (migrationVersion g).length)
    (hdistinct : (files.map migrationVersion).Nodup)
    (hsub : ∀ r ∈ s.ledger, r.project = db.project → r.version ∈ files.map migrationVersion)
    (hrun : Migrate env db secs s = (none, s')) :
    execsOf s'.calls = execsOf s.calls ++ (pendingFiles db s files).map (upBody env db) ∧
    ((pendingFiles db s files).map migrationVersion).Pairwise (fun a b => strLe a b ∧ a ≠ b) ∧
    ∀ v, Row.mk v db.project ∈ s'.ledger ↔ v ∈ files.map migrationVersion := by
  obtain ⟨files2, hfiles2, hl, hc⟩ := Migrate_none hrun
  rw [hfiles] at hfiles2
  injection hfiles2 with hfeq
  subst hfeq
  refine ⟨hc, ?_, ?_⟩
  · have h1 : files.Pairwise (fun f g => strLe (migrationVersion f) (migrationVersion g)) :=
      (findMigrationFiles_sorted hfiles).imp_of_mem
        (fun hf hg hfg => migrationVersion_mono hfg (hwidth _ hf _ hg))
    have h2 : (files.map migrationVersion).Pairwise strLe := List.pairwise_map.mpr h1
    have h3 : (files.map migrationVersion).Pairwise (fun a b => strLe a b ∧ a ≠ b) :=
      h2.and hdistinct
    exact h3.sublist ((List.filter_sublist files).map migrationVersion)
  · intro v
    rw [hl, List.mem_append]
    constructor
    · rintro (h1 | h1)
      · exact hsub _ h1 rfl
      · simp only [pendingFiles, List.mem_map, List.mem_filter] at h1
        obtain ⟨f, ⟨hf, _⟩, hrow⟩ := h1
        injection hrow with hv _
        exact List.mem_map.mpr ⟨f, hf, hv⟩
    · intro hv
      obtain ⟨f, hf, rfl⟩ := List.mem_map.mp hv
      by_cases hin : Row.mk (migrationVersion f) db.project ∈ s.ledger
      · exact Or.inl hin
      · right
        simp only [pendingFiles, List.mem_map, List.mem_filter, decide_eq_true_eq]
        exact ⟨f, ⟨hf, hin⟩, rfl⟩

/-- Witness for C1: `01` is recorded, `02_b.sql` is pending and is applied. -/
theorem migrate_applies_pending_ascending_witness :
    Migrate (quietEnv twoMigrationsFS) exampleDB 10 firstApplied =
      (none, (Migrate (quietEnv twoMigrationsFS) exampleDB 10 firstApplied).2) ∧
    pendingFiles exampleDB firstApplied ["01_a.sql", "02_b.sql"] = ["02_b.sql"] ∧
    (execsOf (Migrate (quietEnv twoMigrationsFS) exampleDB 10 firstApplied).2.calls =
        execsOf firstApplied.calls ++
          (pendingFiles exampleDB firstApplied ["01_a.sql", "02_b.sql"]).map
            (upBody (quietEnv twoMigrationsFS) exampleDB) ∧
      ((pendingFiles exampleDB firstApplied ["01_a.sql", "02_b.sql"]).map
        migrationVersion).Pairwise (fun a b => strLe a b ∧ a ≠ b) ∧
      ∀ v, Row.mk v exampleDB.project ∈
          (Migrate (quietEnv twoMigrationsFS) exampleDB 10 firstApplied).2.ledger ↔
        v ∈ ["01_a.sql", "02_b.sql"].map migrationVersion) :=
  ⟨by decide, by decide,
    migrate_applies_pending_ascending (quietEnv twoMigrationsFS) exampleDB 10 firstApplied _
      ["01_a.sql", "02_b.sql"] (by decide) (by decide) (by decide) (by decide) (by decide)⟩

/-- After a run of `Migrate` that returned nil, the ledger records every
discovered file for the project. -/
theorem Migrate_none_records_all {env : Env} {db : DB} {secs : Int} {s s' : Database}
    (h : Migrate env db secs s = (none, s')) {files : List String}
    (hfiles : findMigrationFiles env.fs db.migrationsDir migrateRegexp = .ok files) :
    ∀ f ∈ files, Row.mk (migrationVersion f) db.project ∈ s'.ledger := by
  obtain ⟨files2, hfiles2, hl, _⟩ := Migrate_none h
  rw [hfiles] at hfiles2
  injection hfiles2 with hfeq
  subst hfeq
  intro f hf
  rw [hl, List.mem_append]
  by_cases hin : Row.mk (migrationVersion f) db.project ∈ s.ledger
  · exact Or.inl hin
  · right
    simp only [pendingFiles, List.mem_map, List.mem_filter, decide_eq_true_eq]
    exact ⟨f, ⟨hf, hin⟩, rfl⟩

/-- C3. Idempotence of `Migrate`: after a run that returned nil, a second run
over the same files (whatever its lock timeout, and whichever of its calls
fail) leaves every ledger row unchanged, and none of its calls executes a
migration body or inserts (or deletes) a ledger row. -/
theorem migrate_idempotent (env env2 : Env) (db : DB) (secs secs2 : Int) (s s1 s2 : Database)
    (r : Option Error) (hfs : env2.fs = env.fs)
    (hfirst : Migrate env db secs s = (none, s1))
    (hsecond : Migrate env2 db secs2 s1 = (r, s2)) :
    s2.ledger = s1.ledger ∧
    ∃ cs, s2.calls = s1.calls ++ cs ∧
      ∀ c ∈ cs, (∀ q, c ≠ .exec q) ∧ (∀ v p, c ≠ .insertMigration v p) ∧
        (∀ v, c ≠ .deleteMigration v) := by
  have hq : Quiet s1 s2 := by
    rcases Migrate_run hsecond with ⟨_, hq⟩ |
      ⟨files, applied, sA, r0, sC, hfiles, qA, happ, hloop, qC, _⟩
    · exact hq
    · rw [hfs] at hfiles
      have hall := Migrate_none_records_all hfirst hfiles
      have hskip : ∀ f ∈ files, migrationVersion f ∈ applied :=
        fun f hf => (happ _).mpr (hall f hf)
      rw [migrateFiles_all_applied sA hskip] at hloop
      injection hloop with _ hs
      subst hs
      exact qA.trans qC
  obtain ⟨hl, cs, hc, hw⟩ := hq
  refine ⟨hl, cs, hc, ?_⟩
  intro c hcm
  have := hw c hcm
  refine ⟨?_, ?_, ?_⟩
  · rintro q rfl; simp [Call.isWrite] at this
  · rintro v p rfl; simp [Call.isWrite] at this
  · rintro v rfl; simp [Call.isWrite] at this

/-- Witness for C3: two runs of `Migrate` over the two example migrations. -/
theorem migrate_idempotent_witness :
    Migrate (quietEnv twoMigrationsFS) exampleDB 10 firstApplied =
      (none, (Migrate (quietEnv twoMigrationsFS) exampleDB 10 firstApplied).2) ∧
    ((Migrate (quietEnv twoMigrationsFS) exampleDB 10
        (Migrate (quietEnv twoMigrationsFS) exampleDB 10 firstApplied).2).2.ledger =
      (Migrate (quietEnv twoMigrationsFS) exampleDB 10 firstApplied).2.ledger ∧
      ∃ cs, (Migrate (quietEnv twoMigrationsFS) exampleDB 10
          (Migrate (quietEnv twoMigrationsFS) exampleDB 10 firstApplied).2).2.calls =
          (Migrate (quietEnv twoMigrationsFS) exampleDB 10 firstApplied).2.calls ++ cs ∧
        ∀ c ∈ cs, (∀ q, c ≠ .exec q) ∧ (∀ v p, c ≠ .insertMigration v p) ∧
          (∀ v, c ≠ .deleteMigration v)) :=
  ⟨by decide,
    migrate_idempotent (quietEnv twoMigrationsFS) (quietEnv twoMigrationsFS) exampleDB 10 10
      firstApplied _ _ _ rfl (by decide) rfl⟩

/-! ### Projects -/

theorem SelectMigrations_mem {env : Env} {limit : Int} {project : String} {s : Database}
    {rows : List String} (h : (SelectMigrations env limit project s).1 = .ok rows)
    {v : String} (hv : v ∈ rows) : Row.mk v project ∈ s.ledger := by
  rw [SelectMigrations_ok h] at hv
  apply mem_recordedVersions.mp
  apply mem_sortStrings.mp
  apply List.mem_reverse.mp
  split_ifs at hv
  · exact List.mem_of_mem_take hv
  · exact hv

theorem InsertMigration_none {env : Env} {v p : String} {s s1 : Database}
    (h : InsertMigration env v p s = (none, s1)) :
    v ∉ s.ledger.map (·.version) ∧ s1.ledger = s.ledger ++ [Row.mk v p] := by
  simp only [InsertMigration] at h
  rcases hf : env.fault s.calls (.insertMigration v p) with _ | m
  · simp only [hf] at h
    split_ifs at h with hdup
    · simp at h
    · simp only [Prod.mk.injEq, true_and] at h
      subst h
      exact ⟨hdup, rfl⟩
  · simp [hf] at h

theorem InsertMigration_duplicate (env : Env) (v p : String) (s : Database)
    (hdup : v ∈ s.ledger.map (·.version)) :
    (InsertMigration env v p s).1 ≠ none ∧ (InsertMigration env v p s).2.ledger = s.ledger := by
  simp only [InsertMigration]
  rcases hf : env.fault s.calls (.insertMigration v p) with _ | m
  · simp [hdup, Database.log]
  · simp [Database.log]

/-- C5 (as amended). For every version `v` and distinct projects `a` and `b`:
once `v` is recorded for `a`, `SelectMigrations` for `b` does not report `v`
(so `v` is still pending for `b`), and `SelectMigrations` for `b` only ever
reports versions of rows of `b`. But `version` is the primary key of the
ledger, so the ledger does not hold a row for (`v`, `a`) and a row for
(`v`, `b`) at once: after `v` is recorded for `a` there is no row (`v`, `b`), and
recording `v` for `b` fails and changes no row. -/
theorem select_ignores_other_projects (env : Env) (v a b : String) (s s1 : Database)
    (hab : a ≠ b) (hrec : InsertMigration env v a s = (none, s1)) :
    Row.mk v a ∈ s1.ledger ∧ Row.mk v b ∉ s1.ledger ∧
    (∀ (env2 : Env) (limit : Int) (rows : List String),
      (SelectMigrations env2 limit b s1).1 = .ok rows → v ∉ rows) ∧
    (∀ (env2 : Env) (limit : Int) (t : Database) (rows : List String),
      (SelectMigrations env2 limit b t).1 = .ok rows → ∀ w ∈ rows, Row.mk w b ∈ t.ledger) ∧
    (∀ env2 : Env, (InsertMigration env2 v b s1).1 ≠ none ∧
      (InsertMigration env2 v b s1).2.ledger = s1.ledger) := by
  obtain ⟨hnew, hl⟩ := InsertMigration_none hrec
  have hnot : Row.mk v b ∉ s1.ledger := by
    rw [hl, List.mem_append]
    rintro (h | h)
    · exact hnew (List.mem_map.mpr ⟨_, h, rfl⟩)
    · simp only [List.mem_singleton, Row.mk.injEq, true_and] at h
      exact hab h.symm
  refine ⟨by rw [hl]; simp, hnot, ?_, ?_, ?_⟩
  · intro env2 limit rows hsel hv
    exact hnot (SelectMigrations_mem hsel hv)
  · intro env2 limit t rows hsel w hw
    exact SelectMigrations_mem hsel hw
  · intro env2
    apply InsertMigration_duplicate
    rw [hl]
    simp

/-- Witness for C5: the version `20210101000000` recorded for the project `a`. -/
theorem select_ignores_other_projects_witness :
    Row.mk "20210101000000" "a" ∈
      (InsertMigration (quietEnv (exampleFS [] "")) "20210101000000" "a" emptyDatabase).2.ledger ∧
    (∀ env2 : Env,
      (InsertMigration env2 "20210101000000" "b"
        (InsertMigration (quietEnv (exampleFS [] "")) "20210101000000" "a"
          emptyDatabase).2).1 ≠ none) :=
  match select_ignores_other_projects (quietEnv (exampleFS [] "")) "20210101000000" "a" "b"
      emptyDatabase _ (by decide) rfl with
  | ⟨h1, _, _, _, h5⟩ => ⟨h1, fun env2 => (h5 env2).1⟩

/-- C5, counterexample to the claim as stated. With `20210101000000` recorded
for the project `a`, recording it for the project `b` fails on the primary
key, and `Migrate` for `b` over the file `20210101000000_init.sql` (pending for
`b`) executes the up body, fails on the insert, and leaves the ledger with the
row of `a` only: the ledger never holds both rows. -/
theorem same_version_two_projects_counterexample :
    (InsertMigration (quietEnv (exampleFS [] "")) "20210101000000" "b"
        ⟨[⟨"20210101000000", "a"⟩], none, []⟩).1 =
      some (.external "duplicate key value violates unique constraint") ∧
    Migrate (quietEnv (exampleFS [⟨"20210101000000_init.sql", false⟩] "-- migrate:up\nA\n"))
        ⟨"postgres", "db", "b"⟩ 10 ⟨[⟨"20210101000000", "a"⟩], none, []⟩ =
      (some (.external "duplicate key value violates unique constraint"),
        ⟨[⟨"20210101000000", "a"⟩], none,
          [.open_, .createTable, .probeProject, .lock, .selectMigrations (-1) "b", .begin,
            .exec "\nA\n", .insertMigration "20210101000000" "b", .rollback, .unlock]⟩) := by
  decide

/-! ### `Rollback` -/

/-- The first row of a descending listing is the greatest version. -/
theorem take_one_reverse_sortStrings (l : List String) :
    ((sortStrings l).reverse.take 1 = [] ∧ l = []) ∨
      ∃ g, (sortStrings l).reverse.take 1 = [g] ∧ g ∈ l ∧ ∀ v ∈ l, strLe v g := by
  have hs : (sortStrings l).reverse.Pairwise (fun a b => strLe b a) :=
    List.pairwise_reverse.mpr (sortStrings_sorted l)
  rcases hrev : (sortStrings l).reverse with _ | ⟨g, rest⟩
  · left
    refine ⟨rfl, ?_⟩
    have h1 : sortStrings l = [] := List.reverse_eq_nil_iff.mp hrev
    cases l with
    | nil => rfl
    | cons x xs =>
      have : x ∈ sortStrings (x :: xs) := mem_sortStrings.mpr (List.mem_cons_self _ _)
      rw [h1] at this
      cases this
  · right
    rw [hrev] at hs
    have hmem : ∀ v, v ∈ l ↔ v ∈ g :: rest := by
      intro v
      rw [← hrev, List.mem_reverse, mem_sortStrings]
    refine ⟨g, rfl, (hmem g).mpr (List.mem_cons_self _ _), ?_⟩
    intro v hv
    rcases List.mem_cons.mp ((hmem v).mp hv) with rfl | hv2
    · exact lexLe_refl _
    · exact List.rel_of_pairwise_cons hs hv2

theorem IsLatest_unique {s : Database} {p g g2 : String} (h1 : IsLatest s p g)
    (h2 : IsLatest s p g2) : g = g2 :=
  strLe_antisymm (h2.2 g h1.1) (h1.2 g2 h2.1)

/-- What `SelectMigrations` with limit 1 returns: nothing when the project has
no version, and otherwise its greatest version only. -/
theorem SelectMigrations_one {env : Env} {project : String} {s : Database}
    {rows : List String} (h : (SelectMigrations env 1 project s).1 = .ok rows) :
    (rows = [] ∧ recordedVersions s project = []) ∨ ∃ g, rows = [g] ∧ IsLatest s project g := by
  have h1 := SelectMigrations_ok h
  simp only [ge_iff_le, zero_le_one, if_true, Int.toNat_one] at h1
  rcases take_one_reverse_sortStrings (recordedVersions s project) with ⟨h2, h3⟩ | ⟨g, h2, h3, h4⟩
  · exact Or.inl ⟨by rw [h1, h2], h3⟩
  · exact Or.inr ⟨g, by rw [h1, h2], h3, h4⟩

theorem rollbackTx_saved (env : Env) (latest : String) (m : StrMap) (t : Database) :
    (rollbackTx env latest m t).2.saved = t.saved := by
  simp only [rollbackTx, txExec, issue, DeleteMigration, Database.log]
  rcases he : env.fault t.calls (.exec (m.get "down")) with _ | me
  · simp only [Option.map]
    rcases hi : env.fault (t.calls ++ [Call.exec (m.get "down")])
        (.deleteMigration latest) with _ | mi <;> rfl
  · rfl

theorem rollbackTx_none {env : Env} {latest : String} {m : StrMap} {t t2 : Database}
    (h : rollbackTx env latest m t = (none, t2)) :
    t2.ledger = t.ledger.filter (fun r => r.version ≠ latest) ∧
      t2.calls = t.calls ++ [.exec (m.get "down"), .deleteMigration latest] := by
  simp only [rollbackTx, txExec, issue, DeleteMigration, Database.log] at h
  rcases he : env.fault t.calls (.exec (m.get "down")) with _ | me
  · simp only [he, Option.map] at h
    rcases hi : env.fault (t.calls ++ [Call.exec (m.get "down")])
        (.deleteMigration latest) with _ | mi
    · simp only [hi, Prod.mk.injEq, true_and] at h
      subst h
      exact ⟨rfl, by simp⟩
    · simp [hi] at h
  · simp [he] at h

/-- The transaction of `Rollback`, committed: the rows of the version are
removed, and the calls are `Begin`, the down body, the delete and `Commit`. -/
theorem rollback_transaction_none {env : Env} {latest : String} {m : StrMap}
    {s s' : Database} (h : doTransaction (sqlDB env) (rollbackTx env latest m) s = (none, s')) :
    s'.ledger = s.ledger.filter (fun r => r.version ≠ latest) ∧
      s'.calls = s.calls ++ [.begin, .exec (m.get "down"), .deleteMigration latest, .commit] := by
  obtain ⟨s2, _, hf, _, rfl⟩ := doTransaction_none h
  obtain ⟨h1, h2⟩ := rollbackTx_none hf
  exact ⟨h1, by simp [Database.log, h2]⟩

/-- With `version` as primary key, the rows of a version recorded for a
project are that one row. -/
theorem filter_version_eq_filter_row {ledger : List Row} {g p : String}
    (hpk : (ledger.map (·.version)).Nodup) (hg : Row.mk g p ∈ ledger) :
    ledger.filter (fun r => r.version ≠ g) = ledger.filter (fun r => r ≠ Row.mk g p) := by
  apply List.filter_congr
  intro r hr
  have hinj := List.inj_on_of_nodup_map hpk hr hg
  by_cases hv : r.version = g
  · have : r = Row.mk g p := hinj hv
    simp [hv, this]
  · have : r ≠ Row.mk g p := fun h => hv (by rw [h])
    simp [hv, this]

theorem latestOf_nil : latestOf [] = "" := rfl

theorem latestOf_singleton (g : String) : latestOf [g] = g := rfl

/-- A run of `Rollback` that returns nil: the greatest version recorded for
the project was selected, its file located and parsed, and the transaction
committed; the rows of that version are gone and the only body executed is
the down body of the located file. -/
theorem Rollback_none {env : Env} {db : DB} {s s' : Database}
    (h : Rollback env db s = (none, s')) :
    ∃ g filename m, IsLatest s db.project g ∧ g ≠ "" ∧
      findMigrationFile env.fs db.migrationsDir g = .ok filename ∧
      parseMigration env.fs (filepathJoin db.migrationsDir filename) = .ok m ∧
      s'.ledger = s.ledger.filter (fun r => r.version ≠ g) ∧
      execsOf s'.calls = execsOf s.calls ++ [m.get "down"] := by
  unfold Rollback at h
  have qopen := openDatabaseForMigration_quiet env db s
  rcases hopen : openDatabaseForMigration env db s with ⟨e | drv, s1⟩
  · simp [hopen] at h
  · rw [hopen] at qopen
    simp only [hopen] at h
    have qsel := SelectMigrations_quiet env 1 db.project s1
    rcases hsel : SelectMigrations env 1 db.project s1 with ⟨e | applied, s2⟩
    · simp [hsel] at h
    · rw [hsel] at qsel
      simp only [hsel] at h
      have hone := @SelectMigrations_one env db.project s1 applied (by rw [hsel])
      split_ifs at h with hempty
      · simp at h
      · rcases hone with ⟨h1, _⟩ | ⟨g, h1, hlatest⟩
        · rw [h1] at hempty
          exact absurd latestOf_nil hempty
        · subst h1
          rw [latestOf_singleton] at h hempty
          rcases hfile : findMigrationFile env.fs db.migrationsDir g with e | filename
          · simp [hfile] at h
          · simp only [hfile] at h
            rcases hparse : parseMigration env.fs (filepathJoin db.migrationsDir filename)
              with e | m
            · simp [hparse] at h
            · simp only [hparse] at h
              obtain ⟨hl, hc⟩ := rollback_transaction_none h
              have hq : Quiet s s2 := qopen.trans qsel
              have hlatest2 : IsLatest s db.project g := by
                unfold IsLatest recordedVersions at *
                rw [qopen.1] at hlatest
                exact hlatest
              refine ⟨g, filename, m, hlatest2, hempty, hfile, hparse, ?_, ?_⟩
              · rw [hl, hq.1]
              · rw [hc, execsOf_append, execsOf_quiet hq]
                simp [execsOf]

theorem findMigrationFile_error_ne {fs : FileSystem} {dir ver : String} {e : Error}
    (h : findMigrationFile fs dir ver = .error e) : e ≠ .nothingToRollback := by
  unfold findMigrationFile findMigrationFiles at h
  split_ifs at h
  · simp only [Except.error.injEq] at h
    rw [← h]; simp
  · rcases hd : fs.readDir dir with e2 | entries
    · simp only [hd, Except.error.injEq] at h
      rw [← h]; simp
    · simp only [hd] at h
      rcases hs : sortStrings (List.map (fun x => x.name)
          (List.filter (fun file => !file.isDir && versionRegexp ver file.name) entries))
        with _ | ⟨f, rest⟩
      · simp only [hs, Except.error.injEq] at h
        rw [← h]; simp
      · simp [hs] at h

theorem parseMigration_error_ne {fs : FileSystem} {path : String} {e : Error}
    (h : parseMigration fs path = .error e) : e ≠ .nothingToRollback := by
  unfold parseMigration at h
  rcases hd : fs.readFile path with e2 | data
  · simp only [hd, Except.error.injEq] at h
    rw [← h]; simp
  · simp [hd] at h

theorem rollbackTx_error_ne {env : Env} {latest : String} {m : StrMap} {t t2 : Database}
    {e : Error} (h : rollbackTx env latest m t = (some e, t2)) : e ≠ .nothingToRollback := by
  simp only [rollbackTx, txExec, issue, DeleteMigration, Database.log] at h
  rcases he : env.fault t.calls (.exec (m.get "down")) with _ | me
  · simp only [he, Option.map] at h
    rcases hi : env.fault (t.calls ++ [Call.exec (m.get "down")])
        (.deleteMigration latest) with _ | mi
    · simp [hi] at h
    · simp only [hi, Prod.mk.injEq, Option.some.injEq] at h
      rw [← h.1]; simp
  · simp only [he, Option.map, Prod.mk.injEq, Option.some.injEq] at h
    rw [← h.1]; simp

theorem doTransaction_error_ne {env : Env} {f : Database → Option Error × Database}
    (hf : ∀ t t2 e, f t = (some e, t2) → e ≠ .nothingToRollback) {s s' : Database} {e : Error}
    (h : doTransaction (sqlDB env) f s = (some e, s')) : e ≠ .nothingToRollback := by
  simp only [doTransaction, sqlDB, dbBegin, dbRollback, dbCommit] at h
  rcases hb : env.fault s.calls .begin with _ | mb
  · simp only [hb] at h
    rcases hft : f { s.log .begin with saved := some s.ledger } with ⟨_ | e2, s2⟩
    · simp only [hft] at h
      rcases hc : env.fault s2.calls .commit with _ | mc
      · simp [hc] at h
      · simp only [hc, Prod.mk.injEq, Option.some.injEq] at h
        rw [← h.1]; simp
    · simp only [hft] at h
      rcases hr : env.fault s2.calls .rollback with _ | mr
      · simp only [hr, Option.map, Prod.mk.injEq, Option.some.injEq] at h
        rw [← h.1]
        exact hf _ _ _ hft
      · simp only [hr, Option.map, Prod.mk.injEq, Option.some.injEq] at h
        rw [← h.1]; simp
  · simp only [hb, Prod.mk.injEq, Option.some.injEq] at h
    rw [← h.1]; simp

/-- What `Rollback` does once the database is open and the latest version
read: it fails with the nothing-to-roll-back error exactly when `latest` is
empty, and then it makes no further call. -/
theorem Rollback_of_selected {env : Env} {db : DB} {s s1 s2 : Database} {drv : Driver}
    {applied : List String} (hopen : openDatabaseForMigration env db s = (.ok drv, s1))
    (hsel : SelectMigrations env 1 db.project s1 = (.ok applied, s2)) :
    (latestOf applied = "" → Rollback env db s = (some .nothingToRollback, s2)) ∧
    (latestOf applied ≠ "" → (Rollback env db s).1 ≠ some .nothingToRollback) := by
  constructor
  · intro hl
    simp only [Rollback, hopen, hsel, hl, if_true]
  · intro hl
    simp only [Rollback, hopen, hsel, hl, if_false]
    rcases hfile : findMigrationFile env.fs db.migrationsDir (latestOf applied) with e | filename
    · simp only
      intro hcontra
      simp only [Option.some.injEq] at hcontra
      exact findMigrationFile_error_ne hfile hcontra
    · simp only
      rcases hparse : parseMigration env.fs (filepathJoin db.migrationsDir filename) with e | m
      · simp only
        intro hcontra
        simp only [Option.some.injEq] at hcontra
        exact parseMigration_error_ne hparse hcontra
      · simp only
        rcases htx : doTransaction (sqlDB env) (rollbackTx env (latestOf applied) m) s2
          with ⟨_ | e, s3⟩
        · simp
        · intro hcontra
          simp only [Option.some.injEq] at hcontra
          exact doTransaction_error_ne (fun _ _ _ h => rollbackTx_error_ne h) htx hcontra

/-- C9 (as amended). For every ledger (with `version` as primary key) in which
the versions recorded for the project are non-empty, once the database is
open and the latest version read: `SelectMigrations` with limit 1 returns only
the lexically greatest version recorded for the project (nothing when there
is none), whereas a negative limit returns all its versions; a `Rollback`
that returns nil has removed exactly the row of that greatest version; and
`Rollback` fails with the nothing-to-roll-back error if and only if the
project has no recorded version, in which case it executes no body and
changes no ledger row. -/
theorem rollback_reverts_latest (env : Env) (db : DB) (s s1 s2 : Database) (drv : Driver)
    (applied : List String)
    (hpk : (s.ledger.map (·.version)).Nodup)
    (hne : ∀ v ∈ recordedVersions s db.project, v ≠ "")
    (hopen : openDatabaseForMigration env db s = (.ok drv, s1))
    (hsel : SelectMigrations env 1 db.project s1 = (.ok applied, s2)) :
    ((applied = [] ∧ recordedVersions s db.project = []) ∨
      ∃ g, applied = [g] ∧ IsLatest s db.project g) ∧
    (∀ rows, (SelectMigrations env (-1) db.project s1).1 = .ok rows →
      ∀ v, v ∈ rows ↔ Row.mk v db.project ∈ s.ledger) ∧
    (∀ s', Rollback env db s = (none, s') →
      ∃ g, IsLatest s db.project g ∧
        s'.ledger = s.ledger.filter (fun r => r ≠ Row.mk g db.project)) ∧
    ((Rollback env db s).1 = some .nothingToRollback ↔ recordedVersions s db.project = []) ∧
    (recordedVersions s db.project = [] → Quiet s (Rollback env db s).2) := by
  have qopen := openDatabaseForMigration_quiet env db s
  rw [hopen] at qopen
  have qsel := SelectMigrations_quiet env 1 db.project s1
  rw [hsel] at qsel
  have hrv : recordedVersions s1 db.project = recordedVersions s db.project := by
    unfold recordedVersions; rw [qopen.1]
  have hone := @SelectMigrations_one env db.project s1 applied (by rw [hsel])
  have hone2 : (applied = [] ∧ recordedVersions s db.project = []) ∨
      ∃ g, applied = [g] ∧ IsLatest s db.project g := by
    unfold IsLatest at *
    rw [hrv] at hone
    exact hone
  obtain ⟨hnothing, hsome⟩ := Rollback_of_selected hopen hsel
  refine ⟨hone2, ?_, ?_, ?_, ?_⟩
  · intro rows hrows v
    rw [SelectMigrations_all hrows v, qopen.1]
  · intro s' hrun
    obtain ⟨g, _, _, hlatest, _, _, _, hl, _⟩ := Rollback_none hrun
    refine ⟨g, hlatest, ?_⟩
    rw [hl]
    exact filter_version_eq_filter_row hpk (mem_recordedVersions.mp hlatest.1)
  · constructor
    · intro hfail
      rcases hone2 with ⟨_, h2⟩ | ⟨g, h1, hlatest⟩
      · exact h2
      · exfalso
        apply hsome _ hfail
        rw [h1, latestOf_singleton]
        exact hne g hlatest.1
    · intro hempty
      rcases hone2 with ⟨h1, _⟩ | ⟨g, _, hlatest⟩
      · rw [hnothing (by rw [h1]; rfl)]
      · have hmem := hlatest.1
        rw [hempty] at hmem
        exact absurd hmem (List.not_mem_nil g)
  · intro hempty
    rcases hone2 with ⟨h1, _⟩ | ⟨g, _, hlatest⟩
    · rw [hnothing (by rw [h1]; rfl)]
      exact qopen.trans qsel
    · have hmem := hlatest.1
      rw [hempty] at hmem
      exact absurd hmem (List.not_mem_nil g)

/-- Witness for C9: with `01` and `02` recorded for the project, `Rollback`
removes the row of `02`. -/
theorem rollback_reverts_latest_witness :
    (Rollback (quietEnv twoMigrationsFS) exampleDB bothApplied).2.ledger =
      [⟨"01", "p"⟩, ⟨"09", "other"⟩] ∧
    (∀ s', Rollback (quietEnv twoMigrationsFS) exampleDB bothApplied = (none, s') →
      ∃ g, IsLatest bothApplied exampleDB.project g ∧
        s'.ledger = bothApplied.ledger.filter (fun r => r ≠ Row.mk g exampleDB.project)) :=
  ⟨by decide,
    (rollback_reverts_latest (quietEnv twoMigrationsFS) exampleDB bothApplied _ _ .sqlite _
      (by decide) (by decide) rfl rfl).2.2.1⟩

/-- C9, counterexample to the claim as stated. The only row of the ledger has
the empty version, for the project `p`: the project has a recorded version,
and `Rollback` fails with the nothing-to-roll-back error. -/
theorem rollback_empty_version_counterexample :
    recordedVersions ⟨[⟨"", "p"⟩], none, []⟩ "p" = [""] ∧
    (Rollback (quietEnv twoMigrationsFS) exampleDB ⟨[⟨"", "p"⟩], none, []⟩).1 =
      some .nothingToRollback := by
  decide

/-! ### Apply, then roll back -/

/-- The versions recorded by a loop that ends without error were in no row
before. -/
theorem migrateFiles_none_fresh {env : Env} {db : DB} {applied : List String}
    {files : List String} {s s' : Database}
    (h : migrateFiles env db applied files s = (none, s')) :
    ∀ f ∈ files.filter (fun f => migrationVersion f ∉ applied),
      migrationVersion f ∉ s.ledger.map (·.version) := by
  induction files generalizing s with
  | nil => simp
  | cons f rest ih =>
    by_cases hf : migrationVersion f ∈ applied
    · rw [migrateFiles_cons_applied rest s hf] at h
      simpa [List.filter_cons, hf] using ih h
    · rw [migrateFiles_cons_pending rest s hf] at h
      rcases hp : parseMigration env.fs (filepathJoin db.migrationsDir f) with e | m
      · simp [hp] at h
      · simp only [hp] at h
        rcases ht : doTransaction (sqlDB env) (migrateTx env db (migrationVersion f) m) s
          with ⟨_ | e, s1⟩
        · simp only [ht] at h
          obtain ⟨hfresh, hl, _⟩ := migrate_transaction_none ht
          have ih2 := ih h
          intro g hg
          simp only [List.filter_cons, hf, not_false_eq_true, decide_True, if_true,
            List.mem_cons] at hg
          rcases hg with rfl | hg
          · exact hfresh
          · have := ih2 g hg
            rw [hl] at this
            intro hmem
            apply this
            simp only [List.map_append, List.mem_append]
            exact Or.inl hmem
        · simp [ht] at h

theorem Migrate_none_fresh {env : Env} {db : DB} {secs : Int} {s s' : Database}
    (h : Migrate env db secs s = (none, s')) {files : List String}
    (hfiles : findMigrationFiles env.fs db.migrationsDir migrateRegexp = .ok files) :
    ∀ f ∈ pendingFiles db s files, migrationVersion f ∉ s.ledger.map (·.version) := by
  rcases Migrate_run h with ⟨hne, _⟩ |
    ⟨files2, applied, sA, r0, sC, hfiles2, qA, happ, hloop, qC, hr⟩
  · exact absurd rfl hne
  · rw [hfiles] at hfiles2
    injection hfiles2 with hfeq
    subst hfeq
    have hr0 := hr rfl
    subst hr0
    have := migrateFiles_none_fresh hloop
    rw [pendingFiles_eq files happ, qA.1] at this
    exact this

/-- One round: applying the one pending file, whose version is the greatest
for the project, and rolling back restores the ledger. -/
theorem apply_rollback_once {env : Env} {db : DB} {secs : Int} {files : List String}
    {f : String} {s s1 s2 : Database}
    (hfiles : findMigrationFiles env.fs db.migrationsDir migrateRegexp = .ok files)
    (hpending : pendingFiles db s files = [f])
    (hgreatest : ∀ v ∈ recordedVersions s db.project, strLe v (migrationVersion f))
    (hmigrate : Migrate env db secs s = (none, s1))
    (hrollback : Rollback env db s1 = (none, s2)) :
    s1.ledger = s.ledger ++ [Row.mk (migrationVersion f) db.project] ∧ s2.ledger = s.ledger := by
  obtain ⟨files2, hfiles2, hl, _⟩ := Migrate_none hmigrate
  rw [hfiles] at hfiles2
  injection hfiles2 with hfeq
  subst hfeq
  rw [hpending] at hl
  simp only [List.map_cons, List.map_nil] at hl
  have hfresh : migrationVersion f ∉ s.ledger.map (·.version) :=
    Migrate_none_fresh hmigrate hfiles f (by rw [hpending]; exact List.mem_cons_self _ _)
  refine ⟨hl, ?_⟩
  obtain ⟨g, _, _, hlatest, _, _, _, hl2, _⟩ := Rollback_none hrollback
  have hrv : recordedVersions s1 db.project =
      recordedVersions s db.project ++ [migrationVersion f] := by
    unfold recordedVersions
    rw [hl]
    simp [List.filter_append]
  have hf : IsLatest s1 db.project (migrationVersion f) := by
    unfold IsLatest
    rw [hrv]
    refine ⟨by simp, ?_⟩
    intro v hv
    rcases List.mem_append.mp hv with h1 | h1
    · exact hgreatest v h1
    · simp only [List.mem_singleton] at h1
      rw [h1]
      exact lexLe_refl _
  have hg : g = migrationVersion f := IsLatest_unique hlatest hf
  subst hg
  rw [hl2, hl, List.filter_append]
  have h1 : s.ledger.filter (fun r => r.version ≠ migrationVersion f) = s.ledger := by
    apply List.filter_eq_self.mpr
    intro r hr
    simp only [ne_eq, decide_not, Bool.not_eq_true', decide_eq_false_iff_not]
    intro hv
    exact hfresh (List.mem_map.mpr ⟨r, hr, hv⟩)
  rw [h1]
  simp

/-- C4 (as amended). Round trip, for every ledger state (the rows of all
projects) and every directory in which exactly one migration file is pending
for the project, its version being lexically greater than every version
recorded for the project: applying it with `Migrate` and then calling
`Rollback`, both returning nil, leaves the whole ledger equal to its state
before, and after any number `n` of such apply-then-rollback rounds (the
states `st 0`, `st 1`, ...) the ledger is again the one before, with no
leftover row. -/
theorem apply_rollback_round_trip (env : Env) (db : DB) (secs : Int) (files : List String)
    (f : String) (st : Nat → Database) (n : Nat)
    (hfiles : findMigrationFiles env.fs db.migrationsDir migrateRegexp = .ok files)
    (hpending : pendingFiles db (st 0) files = [f])
    (hgreatest : ∀ v ∈ recordedVersions (st 0) db.project, strLe v (migrationVersion f))
    (hrounds : ∀ i < n, Migrate env db secs (st (2 * i)) = (none, st (2 * i + 1)) ∧
      Rollback env db (st (2 * i + 1)) = (none, st (2 * i + 2))) :
    ∀ i ≤ n, (st (2 * i)).ledger = (st 0).ledger ∧
      (i < n → (st (2 * i + 1)).ledger =
        (st 0).ledger ++ [Row.mk (migrationVersion f) db.project]) := by
  intro i
  induction i with
  | zero =>
    intro _
    refine ⟨rfl, ?_⟩
    intro h0
    obtain ⟨hm, hr⟩ := hrounds 0 h0
    exact (apply_rollback_once hfiles hpending hgreatest hm hr).1
  | succ i ih =>
    intro hi
    obtain ⟨hprev, _⟩ := ih (by omega)
    obtain ⟨hm, hr⟩ := hrounds i (by omega)
    have hp : pendingFiles db (st (2 * i)) files = [f] := by
      rw [← hpending]; unfold pendingFiles; rw [hprev]
    have hg : ∀ v ∈ recordedVersions (st (2 * i)) db.project, strLe v (migrationVersion f) := by
      unfold recordedVersions at *; rw [hprev]; exact hgreatest
    have hround := apply_rollback_once hfiles hp hg hm hr
    have hnext : (st (2 * (i + 1))).ledger = (st 0).ledger := by
      rw [show 2 * (i + 1) = 2 * i + 2 by ring, hround.2, hprev]
    refine ⟨hnext, ?_⟩
    intro hlt
    obtain ⟨hm2, hr2⟩ := hrounds (i + 1) hlt
    have hp2 : pendingFiles db (st (2 * (i + 1))) files = [f] := by
      rw [← hpending]; unfold pendingFiles; rw [hnext]
    have hg2 : ∀ v ∈ recordedVersions (st (2 * (i + 1))) db.project,
        strLe v (migrationVersion f) := by
      unfold recordedVersions at *; rw [hnext]; exact hgreatest
    rw [(apply_rollback_once hfiles hp2 hg2 hm2 hr2).1, hnext]

/-- Witness for C4: two rounds of applying and rolling back `02_b.sql`. -/
theorem apply_rollback_round_trip_witness :
    pendingFiles exampleDB (roundTripStates 0) ["01_a.sql", "02_b.sql"] = ["02_b.sql"] ∧
    (roundTripStates 1).ledger = [⟨"01", "p"⟩, ⟨"09", "other"⟩, ⟨"02", "p"⟩] ∧
    (roundTripStates 2).ledger = (roundTripStates 0).ledger ∧
    (roundTripStates 4).ledger = (roundTripStates 0).ledger :=
  ⟨by decide, by decide,
    (apply_rollback_round_trip (quietEnv twoMigrationsFS) exampleDB 10 ["01_a.sql", "02_b.sql"]
      "02_b.sql" roundTripStates 2 (by decide) (by decide) (by decide) (by decide) 1
      (by decide)).1,
    (apply_rollback_round_trip (quietEnv twoMigrationsFS) exampleDB 10 ["01_a.sql", "02_b.sql"]
      "02_b.sql" roundTripStates 2 (by decide) (by decide) (by decide) (by decide) 2
      (by decide)).1⟩

/-- C4, counterexample to the claim as stated. With `02` recorded and
`01_a.sql` pending, `Migrate` applies `01_a.sql`, and `Rollback` then reverts
`02`, the greatest version, not the file just applied: the ledger ends with
the row of `01` instead of the row of `02` it had at the start. And on the
empty ledger, where `01_a.sql` and `02_b.sql` are both pending, `Migrate`
applies both and `Rollback` reverts only `02`: the ledger ends with the row of
`01` instead of being empty. -/
theorem apply_rollback_counterexample :
    (pendingFiles exampleDB secondApplied ["01_a.sql", "02_b.sql"] = ["01_a.sql"] ∧
      (Migrate (quietEnv twoMigrationsFS) exampleDB 10 secondApplied).1 = none ∧
      (Migrate (quietEnv twoMigrationsFS) exampleDB 10 secondApplied).2.ledger =
        [⟨"02", "p"⟩, ⟨"01", "p"⟩] ∧
      (Rollback (quietEnv twoMigrationsFS) exampleDB
        (Migrate (quietEnv twoMigrationsFS) exampleDB 10 secondApplied).2).1 = none ∧
      (Rollback (quietEnv twoMigrationsFS) exampleDB
        (Migrate (quietEnv twoMigrationsFS) exampleDB 10 secondApplied).2).2.ledger =
        [⟨"01", "p"⟩] ∧
      (Rollback (quietEnv twoMigrationsFS) exampleDB
        (Migrate (quietEnv twoMigrationsFS) exampleDB 10 secondApplied).2).2.ledger ≠
        secondApplied.ledger) ∧
    (pendingFiles exampleDB emptyDatabase ["01_a.sql", "02_b.sql"] =
        ["01_a.sql", "02_b.sql"] ∧
      (Migrate (quietEnv twoMigrationsFS) exampleDB 10 emptyDatabase).1 = none ∧
      (Migrate (quietEnv twoMigrationsFS) exampleDB 10 emptyDatabase).2.ledger =
        [⟨"01", "p"⟩, ⟨"02", "p"⟩] ∧
      (Rollback (quietEnv twoMigrationsFS) exampleDB
        (Migrate (quietEnv twoMigrationsFS) exampleDB 10 emptyDatabase).2).1 = none ∧
      (Rollback (quietEnv twoMigrationsFS) exampleDB
        (Migrate (quietEnv twoMigrationsFS) exampleDB 10 emptyDatabase).2).2.ledger =
        [⟨"01", "p"⟩] ∧
      (Rollback (quietEnv twoMigrationsFS) exampleDB
        (Migrate (quietEnv twoMigrationsFS) exampleDB 10 emptyDatabase).2).2.ledger ≠
        emptyDatabase.ledger) := by
  decide

/-! ### When `Migrate` returns nil -/

theorem migrate_transaction_succeeds {env : Env} (hfault : ∀ h c, env.fault h c = none)
    (db : DB) (ver : String) (m : StrMap) (s : Database)
    (hfresh : ver ∉ s.ledger.map (·.version)) :
    ∃ s', doTransaction (sqlDB env) (migrateTx env db ver m) s = (none, s') ∧
      s'.ledger = s.ledger ++ [Row.mk ver db.project] := by
  have h : (doTransaction (sqlDB env) (migrateTx env db ver m) s).1 = none ∧
      (doTransaction (sqlDB env) (migrateTx env db ver m) s).2.ledger =
        s.ledger ++ [Row.mk ver db.project] := by
    simp only [doTransaction, sqlDB, dbBegin, dbCommit, migrateTx, txExec, issue,
      InsertMigration, Database.log, hfault, Option.map, hfresh, if_false, and_self]
  exact ⟨(doTransaction (sqlDB env) (migrateTx env db ver m) s).2, Prod.ext h.1 rfl, h.2⟩

theorem migrateFiles_succeeds {env : Env} (hfault : ∀ h c, env.fault h c = none) (db : DB)
    (applied : List String) (files : List String) (s : Database)
    (hread : ∀ f ∈ files, ∃ text,
      env.fs.readFile (filepathJoin db.migrationsDir f) = .ok text)
    (hnodup : ((files.filter (fun f => migrationVersion f ∉ applied)).map
      migrationVersion).Nodup)
    (hfresh : ∀ f ∈ files, migrationVersion f ∉ applied →
      migrationVersion f ∉ s.ledger.map (·.version)) :
    (migrateFiles env db applied files s).1 = none := by
  induction files generalizing s with
  | nil => rfl
  | cons f rest ih =>
    have hread2 : ∀ g ∈ rest, ∃ text,
        env.fs.readFile (filepathJoin db.migrationsDir g) = .ok text :=
      fun g hg => hread g (List.mem_cons_of_mem _ hg)
    by_cases hf : migrationVersion f ∈ applied
    · rw [migrateFiles_cons_applied rest s hf]
      apply ih s hread2
      · simpa [List.filter_cons, hf] using hnodup
      · exact fun g hg => hfresh g (List.mem_cons_of_mem _ hg)
    · rw [migrateFiles_cons_pending rest s hf]
      obtain ⟨text, htext⟩ := hread f (List.mem_cons_self _ _)
      have hparse : parseMigration env.fs (filepathJoin db.migrationsDir f) =
          .ok (parseContents text) := by
        simp only [parseMigration, htext]
      obtain ⟨s1, htx, hl⟩ := migrate_transaction_succeeds hfault db (migrationVersion f)
        (parseContents text) s (hfresh f (List.mem_cons_self _ _) hf)
      simp only [hparse, htx]
      simp only [List.filter_cons, hf, not_false_eq_true, decide_True, if_true, List.map_cons,
        List.nodup_cons] at hnodup
      apply ih s1 hread2 hnodup.2
      intro g hg hga
      rw [hl, List.map_append, List.mem_append]
      rintro (h1 | h1)
      · exact hfresh g (List.mem_cons_of_mem _ hg) hga h1
      · simp only [List.map_cons, List.map_nil, List.mem_singleton] at h1
        apply hnodup.1
        rw [← h1]
        exact List.mem_map.mpr ⟨g, List.mem_filter.mpr ⟨hg, by simpa using hga⟩, rfl⟩

/-- `Migrate` returns nil when there is a migration file, the driver is known,
the lock is granted in time, every file can be read, no call fails, and the
pending files have pairwise distinct versions that are in no row of the
ledger. -/
theorem Migrate_succeeds (env : Env) (db : DB) (secs : Int) (s : Database)
    (files : List String) (drv : Driver)
    (hfiles : findMigrationFiles env.fs db.migrationsDir migrateRegexp = .ok files)
    (hsome : files ≠ []) (hdrv : GetDriver db.scheme = .ok drv)
    (hfault : ∀ h c, env.fault h c = none)
    (hlock : ∀ h, selectCase env secs h none = .lockChan)
    (hread : ∀ f ∈ files, ∃ text,
      env.fs.readFile (filepathJoin db.migrationsDir f) = .ok text)
    (hnodup : ((pendingFiles db s files).map migrationVersion).Nodup)
    (hfresh : ∀ f ∈ pendingFiles db s files, migrationVersion f ∉ s.ledger.map (·.version)) :
    (Migrate env db secs s).1 = none := by
  have hlen : ¬ files.length = 0 := by
    intro h0
    exact hsome (List.length_eq_zero.mp h0)
  have hopen : openDatabaseForMigration env db s =
      (.ok drv, ((s.log .open_).log .createTable).log .probeProject) := by
    simp only [openDatabaseForMigration, hdrv, issue, hfault, Option.map, CreateMigrationsTable]
  have hlk : drv.Lock env (((s.log .open_).log .createTable).log .probeProject) =
      (none, ((((s.log .open_).log .createTable).log .probeProject).log .lock)) := by
    cases drv <;> simp [Driver.Lock, issue, hfault]
  have hsel : SelectMigrations env (-1) db.project
      ((((s.log .open_).log .createTable).log .probeProject).log .lock) =
      (.ok (sortStrings (recordedVersions s db.project)).reverse,
        (((((s.log .open_).log .createTable).log .probeProject).log .lock).log
          (.selectMigrations (-1) db.project))) := by
    simp [SelectMigrations, hfault, recordedVersions, Database.log]
  have happ : ∀ v, v ∈ (sortStrings (recordedVersions s db.project)).reverse ↔
      Row.mk v db.project ∈ s.ledger := by
    intro v
    rw [List.mem_reverse, mem_sortStrings, mem_recordedVersions]
  have hloop := migrateFiles_succeeds hfault db
    (sortStrings (recordedVersions s db.project)).reverse files
    (((((s.log .open_).log .createTable).log .probeProject).log .lock).log
      (.selectMigrations (-1) db.project)) hread
    (by rw [pendingFiles_eq files happ]; exact hnodup)
    (by
      intro f hf hfa
      apply hfresh f
      simp only [pendingFiles, List.mem_filter, decide_eq_true_eq]
      exact ⟨hf, fun hrow => hfa ((happ _).mpr hrow)⟩)
  simp only [Migrate, hfiles, hlen, if_false, hopen, RunInLock, hlk, hlock, migrateLocked, hsel]
  rcases hres : migrateFiles env db (sortStrings (recordedVersions s db.project)).reverse files
    (((((s.log .open_).log .createTable).log .probeProject).log .lock).log
      (.selectMigrations (-1) db.project)) with ⟨r, sC⟩
  rw [hres] at hloop
  simp only at hloop
  subst hloop
  cases drv <;> simp [Driver.Unlock, issue, hfault]

/-! ### Discovery -/

theorem isDigit_ne_newline {c : Char} (h : c.isDigit = true) : c ≠ '\n' := by
  rintro rfl
  exact absurd h (by decide)

theorem isDigit_ne_dot {c : Char} (h : c.isDigit = true) : c ≠ '.' := by
  rintro rfl
  exact absurd h (by decide)

theorem migrateRegexp_iff (name : String) :
    migrateRegexp name = true ↔
      ∃ (c : Char) (mid : List Char),
        name.data = c :: (mid ++ ".sql".data) ∧ c.isDigit = true ∧ '\n' ∉ mid := by
  unfold migrateRegexp
  rcases hd : name.data with _ | ⟨c, rest⟩
  · simp
  · simp only [Bool.and_eq_true, anyThenDotSql_iff, List.cons.injEq]
    constructor
    · rintro ⟨hc, mid, hmid, hnl⟩
      exact ⟨c, mid, ⟨rfl, hmid⟩, hc, hnl⟩
    · rintro ⟨c2, mid, ⟨hc2, hmid⟩, hc, hnl⟩
      subst hc2
      exact ⟨hc, mid, hmid, hnl⟩

theorem migrateRegexp_iff_words (name : String) :
    migrateRegexp name = true ↔
      beginsWithDigit name = true ∧ endsInDotSql name = true ∧ '\n' ∉ name.data := by
  rw [migrateRegexp_iff]
  unfold beginsWithDigit endsInDotSql
  constructor
  · rintro ⟨c, mid, hname, hc, hnl⟩
    rw [hname]
    refine ⟨hc, ?_, ?_⟩
    · rw [List.isSuffixOf_iff_suffix]
      exact ⟨c :: mid, by simp⟩
    · simp only [List.mem_cons, List.mem_append, not_or]
      exact ⟨fun h => isDigit_ne_newline hc h.symm, hnl, by decide⟩
  · rcases hd : name.data with _ | ⟨c, rest⟩
    · simp
    · rintro ⟨hc, hsuf, hnl⟩
      simp only at hc
      rw [List.isSuffixOf_iff_suffix, List.suffix_cons_iff] at hsuf
      rcases hsuf with heq | ⟨mid, hmid⟩
      · exfalso
        have : c = '.' := by
          have h2 : (".sql".data).head? = (c :: rest).head? := by rw [heq]
          simpa using h2.symm
        exact isDigit_ne_dot hc this
      · refine ⟨c, mid, by rw [hmid], hc, ?_⟩
        intro hin
        apply hnl
        rw [← hmid]
        simp [hin]

theorem mem_findMigrationFiles {fs : FileSystem} {dir : String} {re : String → Bool}
    {entries : List FileInfo} {files : List String} (hread : fs.readDir dir = .ok entries)
    (hfiles : findMigrationFiles fs dir re = .ok files) (name : String) :
    name ∈ files ↔ ∃ file ∈ entries, file.isDir = false ∧ re file.name = true ∧
      file.name = name := by
  unfold findMigrationFiles at hfiles
  simp only [hread, Except.ok.injEq] at hfiles
  rw [← hfiles, mem_sortStrings]
  simp only [List.mem_map, List.mem_filter, Bool.and_eq_true, Bool.not_eq_true']
  constructor
  · rintro ⟨file, ⟨hmem, hdir, hre⟩, hname⟩
    exact ⟨file, hmem, hdir, hre, hname⟩
  · rintro ⟨file, hmem, hdir, hre, hname⟩
    exact ⟨file, ⟨hmem, hdir, hre⟩, hname⟩

/-- C11 (as amended). For every readable directory, the discovery of `Migrate`
succeeds and returns exactly the names of the non-directory entries that
begin with a digit, end in `.sql` and contain no newline, in ascending lexical
order, each once (no name is repeated when the entries have distinct names);
and, for every directory, discovery fails if and only if the directory cannot
be read. -/
theorem findMigrationFiles_discovers (fs : FileSystem) (dir : String) (entries : List FileInfo)
    (hread : fs.readDir dir = .ok entries) :
    (∃ files, findMigrationFiles fs dir migrateRegexp = .ok files ∧
      (∀ name, name ∈ files ↔ ∃ file ∈ entries, IsMigrationEntry file ∧ file.name = name) ∧
      files.Pairwise strLe ∧
      ((entries.map (·.name)).Nodup → files.Nodup)) ∧
    (∀ (fs2 : FileSystem) (dir2 : String),
      (∃ err, findMigrationFiles fs2 dir2 migrateRegexp = .error err) ↔
        ∃ msg, fs2.readDir dir2 = .error msg) := by
  constructor
  · have hfiles : findMigrationFiles fs dir migrateRegexp =
        .ok (sortStrings ((entries.filter
          (fun file => !file.isDir && migrateRegexp file.name)).map (·.name))) := by
      simp only [findMigrationFiles, hread]
    refine ⟨_, hfiles, ?_, findMigrationFiles_sorted hfiles, ?_⟩
    · intro name
      rw [mem_findMigrationFiles hread hfiles name]
      unfold IsMigrationEntry
      constructor
      · rintro ⟨file, hmem, hdir, hre, hname⟩
        exact ⟨file, hmem, ⟨hdir, (migrateRegexp_iff_words _).mp hre⟩, hname⟩
      · rintro ⟨file, hmem, ⟨hdir, hw⟩, hname⟩
        exact ⟨file, hmem, hdir, (migrateRegexp_iff_words _).mpr hw, hname⟩
    · intro hnodup
      have hperm : (sortStrings ((entries.filter
          (fun file => !file.isDir && migrateRegexp file.name)).map (·.name))).Perm
          ((entries.filter (fun file => !file.isDir && migrateRegexp file.name)).map (·.name)) :=
        List.perm_insertionSort strLe _
      rw [hperm.nodup_iff]
      exact hnodup.sublist ((List.filter_sublist entries).map _)
  · intro fs2 dir2
    unfold findMigrationFiles
    rcases fs2.readDir dir2 with msg | entries2
    · simp
    · simp

/-- Witness for C11: the directory of the two example migrations. -/
theorem findMigrationFiles_discovers_witness :
    findMigrationFiles twoMigrationsFS "db" migrateRegexp = .ok ["01_a.sql", "02_b.sql"] ∧
    ((∃ files, findMigrationFiles twoMigrationsFS "db" migrateRegexp = .ok files ∧
      (∀ name, name ∈ files ↔
        ∃ file ∈ [FileInfo.mk "02_b.sql" false, ⟨"01_a.sql", false⟩, ⟨"03_notes.sql", true⟩],
          IsMigrationEntry file ∧ file.name = name) ∧
      files.Pairwise strLe ∧
      (([FileInfo.mk "02_b.sql" false, ⟨"01_a.sql", false⟩, ⟨"03_notes.sql", true⟩].map
        (·.name)).Nodup → files.Nodup)) ∧
    (∀ (fs2 : FileSystem) (dir2 : String),
      (∃ err, findMigrationFiles fs2 dir2 migrateRegexp = .error err) ↔
        ∃ msg, fs2.readDir dir2 = .error msg)) :=
  ⟨by decide, findMigrationFiles_discovers twoMigrationsFS "db" _ rfl⟩

/-- C11, counterexample to the claim as stated. The only entry of the
directory is a file named `1`, newline, `.sql`: it is not a directory and its
name begins with a digit and ends in `.sql`, yet discovery returns no name. -/
theorem findMigrationFiles_newline_counterexample :
    beginsWithDigit "1\n.sql" = true ∧ endsInDotSql "1\n.sql" = true ∧
    findMigrationFiles (exampleFS [⟨"1\n.sql", false⟩] "") "db" migrateRegexp = .ok [] := by
  decide

/-! ### The file of a version -/

theorem dropWhile_append_of_head {p : Char → Bool} (a b : List Char)
    (hb : ∀ c rest, b = c :: rest → p c = false) :
    (a ++ b).dropWhile p = a.dropWhile p ++ b := by
  induction a with
  | nil =>
    cases b with
    | nil => rfl
    | cons c rest => simp [List.dropWhile_cons, hb c rest rfl]
  | cons x a ih =>
    by_cases hx : p x = true
    · simp [List.dropWhile_cons, hx, ih]
    · simp [List.dropWhile_cons, hx]

theorem migrationVersion_digits (f : String) :
    ∀ c ∈ (migrationVersion f).data, c.isDigit = true := by
  intro c hc
  exact List.mem_takeWhile_imp hc

/-- A discovered file matches the pattern of its own version. -/
theorem versionRegexp_self {f : String} (hf : migrateRegexp f = true) :
    migrationVersion f ≠ "" ∧ versionRegexp (migrationVersion f) f = true := by
  obtain ⟨c, mid, hname, hc, hnl⟩ := (migrateRegexp_iff f).mp hf
  constructor
  · intro h
    have h2 : (migrationVersion f).data = [] := by rw [h]
    simp [migrationVersion, hname, List.takeWhile_cons, hc] at h2
  · rw [versionRegexp_iff]
    have hsplit := List.takeWhile_append_dropWhile Char.isDigit f.data
    have hdrop : f.data.dropWhile Char.isDigit =
        (c :: mid).dropWhile Char.isDigit ++ ".sql".data := by
      rw [hname, ← List.cons_append]
      apply dropWhile_append_of_head
      intro d rest hd
      have : d = '.' := by
        have h2 : (".sql".data).head? = (d :: rest).head? := by rw [hd]
        simpa using h2.symm
      rw [this]
      decide
    refine ⟨(c :: mid).dropWhile Char.isDigit, ?_, ?_⟩
    · rw [List.append_assoc, ← hdrop]
      exact hsplit.symm
    · intro hin
      have hsuf : (c :: mid).dropWhile Char.isDigit <:+ c :: mid := List.dropWhile_suffix _
      have hin2 : '\n' ∈ c :: mid := hsuf.subset hin
      rcases List.mem_cons.mp hin2 with h1 | h1
      · exact isDigit_ne_newline hc h1.symm
      · exact hnl h1

/-- A file that matches the pattern of a version of digits is a discovered
file, and its own version begins with that version. -/
theorem migrateRegexp_of_versionRegexp {v g : String} (hv : v ≠ "")
    (hdigits : ∀ c ∈ v.data, c.isDigit = true) (hg : versionRegexp v g = true) :
    migrateRegexp g = true ∧
      ∃ more : List Char, (migrationVersion g).data = v.data ++ more := by
  obtain ⟨mid, hname, hnl⟩ := (versionRegexp_iff v g).mp hg
  constructor
  · rw [migrateRegexp_iff]
    rcases hvd : v.data with _ | ⟨c, vrest⟩
    · exact absurd (String.ext (by rw [hvd])) hv
    · refine ⟨c, vrest ++ mid, by rw [hname, hvd]; simp, ?_, ?_⟩
      · exact hdigits c (by rw [hvd]; exact List.mem_cons_self _ _)
      · intro hin
        rcases List.mem_append.mp hin with h1 | h1
        · exact isDigit_ne_newline
            (hdigits '\n' (by rw [hvd]; exact List.mem_cons_of_mem _ h1)) rfl
        · exact hnl h1
  · refine ⟨(mid ++ ".sql".data).takeWhile Char.isDigit, ?_⟩
    unfold migrationVersion
    simp only
    rw [hname, List.append_assoc, List.takeWhile_append_of_pos hdigits]

/-- C14. For every directory whose discovered migration files all have version
prefixes of the same width, and every discovered file `f`:
`findMigrationFile` for the version of `f` succeeds and returns a discovered
file whose version equals the version of `f`; so a `Rollback` that removes
that version (it is the greatest recorded for the project) executes the down
body of a file that carries exactly that version. -/
theorem findMigrationFile_same_version (fs : FileSystem) (dir : String) (files : List String)
    (f : String)
    (hfiles : findMigrationFiles fs dir migrateRegexp = .ok files)
    (hwidth : ∀ a ∈ files, ∀ b ∈ files,
      (migrationVersion a).length = (migrationVersion b).length)
    (hf : f ∈ files) :
    (∃ g, findMigrationFile fs dir (migrationVersion f) = .ok g ∧ g ∈ files ∧
      migrationVersion g = migrationVersion f) ∧
    (∀ (env : Env) (db : DB) (s s' : Database), env.fs = fs → db.migrationsDir = dir →
      IsLatest s db.project (migrationVersion f) → Rollback env db s = (none, s') →
      ∃ g m, findMigrationFile fs dir (migrationVersion f) = .ok g ∧
        migrationVersion g = migrationVersion f ∧
        parseMigration fs (filepathJoin dir g) = .ok m ∧
        execsOf s'.calls = execsOf s.calls ++ [m.get "down"] ∧
        s'.ledger = s.ledger.filter (fun r => r.version ≠ migrationVersion f)) := by
  have hentries : ∃ entries, fs.readDir dir = .ok entries := by
    unfold findMigrationFiles at hfiles
    rcases hd : fs.readDir dir with msg | entries
    · simp [hd] at hfiles
    · exact ⟨entries, rfl⟩
  obtain ⟨entries, hread⟩ := hentries
  obtain ⟨file, hfile, hfdir, hfre, hfname⟩ := (mem_findMigrationFiles hread hfiles f).mp hf
  subst hfname
  obtain ⟨hne, hself⟩ := versionRegexp_self hfre
  have hspec := findMigrationFile_least fs dir (migrationVersion file.name) entries hne hread
  have hfirst : ∃ g, findMigrationFile fs dir (migrationVersion file.name) = .ok g ∧
      g ∈ files ∧ migrationVersion g = migrationVersion file.name := by
    rcases hres : findMigrationFile fs dir (migrationVersion file.name) with err | g
    · exfalso
      apply (hspec.2.mp ⟨err, hres⟩)
      exact ⟨file, hfile, hfdir, (versionRegexp_iff _ _).mp hself⟩
    · obtain ⟨⟨gfile, hgfile, ⟨hgdir, hgre⟩, hgname⟩, _⟩ := (hspec.1 g).mp hres
      have hgre2 : versionRegexp (migrationVersion file.name) gfile.name = true :=
        (versionRegexp_iff _ _).mpr hgre
      obtain ⟨hgm, more, hmore⟩ := migrateRegexp_of_versionRegexp hne
        (migrationVersion_digits file.name) hgre2
      have hgin : g ∈ files :=
        (mem_findMigrationFiles hread hfiles g).mpr ⟨gfile, hgfile, hgdir, hgm, hgname⟩
      refine ⟨g, rfl, hgin, ?_⟩
      have hlen := hwidth g hgin file.name hf
      rw [← hgname] at hlen ⊢
      simp only [String.length] at hlen
      rw [hmore, List.length_append] at hlen
      have hnil : more = [] := List.length_eq_zero.mp (by omega)
      apply String.ext
      rw [hmore, hnil, List.append_nil]
  refine ⟨hfirst, ?_⟩
  intro env db s s' hfs hdirEq hlatest hrun
  obtain ⟨g2, filename, m, hlatest2, _, hfind, hparse, hl, hc⟩ := Rollback_none hrun
  have hg : g2 = migrationVersion file.name := IsLatest_unique hlatest2 hlatest
  subst hg
  rw [hfs, hdirEq] at hfind hparse
  obtain ⟨g, hfindg, _, hver⟩ := hfirst
  rw [hfind] at hfindg
  injection hfindg with hgeq
  subst hgeq
  exact ⟨filename, m, hfind, hver, hparse, hc, hl⟩

/-- Witness for C14: the file found for the version of `02_b.sql` is
`02_b.sql`. -/
theorem findMigrationFile_same_version_witness :
    findMigrationFile twoMigrationsFS "db" "02" = .ok "02_b.sql" ∧
    ∃ g, findMigrationFile twoMigrationsFS "db" (migrationVersion "02_b.sql") = .ok g ∧
      g ∈ ["01_a.sql", "02_b.sql"] ∧ migrationVersion g = migrationVersion "02_b.sql" :=
  ⟨by decide,
    (findMigrationFile_same_version twoMigrationsFS "db" ["01_a.sql", "02_b.sql"] "02_b.sql"
      (by decide) (by decide) (by decide)).1⟩

/-! ### `RunInLock` -/

theorem selectCase_eq (env : Env) (timeoutSecs : Int) (history : List Call)
    (lockResult : Option Error) :
    selectCase env timeoutSecs history lockResult =
      match env.lockAttempt history with
      | .blocks => .timeAfter
      | .returns nanos =>
        if (nanos : Int) < lockDeadline timeoutSecs ∨
            ((nanos : Int) = lockDeadline timeoutSecs ∧ env.timerWinsTie = false) then
          match lockResult with
          | none => .lockChan
          | some err => .errChan err
        else .timeAfter := rfl

theorem lockDeadline_eq {timeoutSecs : Int} (hlo : -9223372036 ≤ timeoutSecs)
    (hhi : timeoutSecs ≤ 9223372036) :
    lockDeadline timeoutSecs = max 0 (1000000000 * timeoutSecs) := by
  unfold lockDeadline wrapInt64
  have h1 : (timeoutSecs + 2 ^ 63) % 2 ^ 64 - 2 ^ 63 = timeoutSecs := by omega
  rw [h1]
  have h2 : (1000000000 * timeoutSecs + 2 ^ 63) % 2 ^ 64 - 2 ^ 63 = 1000000000 * timeoutSecs := by
    omega
  rw [h2]

theorem Driver.Unlock_not_postgres {driver : Driver} (h : driver ≠ .postgres) (env : Env)
    (s : Database) : (driver.Unlock env s).1 = none := by
  cases driver
  · rfl
  · exact absurd rfl h
  · rfl

/-- `RunInLock` when `select` takes the case of the lock. -/
theorem RunInLock_lockChan {env : Env} {driver : Driver} {timeoutSecs : Int}
    (lockFunc : Database → Option Error × Database) {s : Database}
    (h : selectCase env timeoutSecs s.calls (driver.Lock env s).1 = .lockChan) :
    RunInLock env driver timeoutSecs lockFunc s =
      (match (driver.Unlock env (lockFunc (s.log .lock)).2).1 with
        | some panic_ => some panic_
        | none => (lockFunc (s.log .lock)).1,
        ((lockFunc (s.log .lock)).2).log .unlock) := by
  have hs := Driver.Lock_snd driver env s
  have hu := Driver.Unlock_snd driver env (lockFunc (s.log .lock)).2
  unfold RunInLock
  simp only [h, hs]
  rcases hres : driver.Unlock env (lockFunc (s.log .lock)).2 with ⟨_ | p, s3⟩
  · rw [hres] at hu
    simp only at hu
    simp only [hu]
  · rw [hres] at hu
    simp only at hu
    simp only [hu]

/-- `RunInLock` when `select` takes another case: the body is not run. -/
theorem RunInLock_not_lockChan {env : Env} {driver : Driver} {timeoutSecs : Int}
    (lockFunc : Database → Option Error × Database) {s : Database}
    (h : selectCase env timeoutSecs s.calls (driver.Lock env s).1 ≠ .lockChan) :
    (selectCase env timeoutSecs s.calls (driver.Lock env s).1 = .timeAfter ∧
      RunInLock env driver timeoutSecs lockFunc s = (some (.lockTimeout timeoutSecs), s.log .lock)) ∨
    ∃ err, selectCase env timeoutSecs s.calls (driver.Lock env s).1 = .errChan err ∧
      RunInLock env driver timeoutSecs lockFunc s = (some err, s.log .lock) := by
  have hs := Driver.Lock_snd driver env s
  unfold RunInLock
  rcases hcase : selectCase env timeoutSecs s.calls (driver.Lock env s).1 with _ | err | _
  · exact absurd hcase h
  · right
    exact ⟨err, rfl, by simp only [hs, hcase]⟩
  · left
    exact ⟨rfl, by simp only [hs, hcase]⟩

/-- C12 (as amended). Whenever the driver's `Lock` returns nil before the
deadline, `RunInLock` invokes the protected body exactly once (on the state
left by `Lock`), then calls the driver's `Unlock` exactly once, whether the
body returned nil or an error, and returns exactly the body's result unless
`Unlock` panics, which only the Postgres driver's `Unlock` does (when its
unlock statement fails); then the panic replaces the result. -/
theorem RunInLock_acquired (env : Env) (driver : Driver) (timeoutSecs : Int)
    (lockFunc : Database → Option Error × Database) (s : Database) (nanos : Nat)
    (hattempt : env.lockAttempt s.calls = .returns nanos)
    (hbefore : (nanos : Int) < lockDeadline timeoutSecs)
    (hlock : (driver.Lock env s).1 = none) :
    (RunInLock env driver timeoutSecs lockFunc s).2 = ((lockFunc (s.log .lock)).2).log .unlock ∧
    (∀ cs, (lockFunc (s.log .lock)).2.calls = (s.log .lock).calls ++ cs →
      (RunInLock env driver timeoutSecs lockFunc s).2.calls =
        s.calls ++ [.lock] ++ cs ++ [.unlock]) ∧
    ((driver.Unlock env (lockFunc (s.log .lock)).2).1 = none →
      (RunInLock env driver timeoutSecs lockFunc s).1 = (lockFunc (s.log .lock)).1) ∧
    (∀ panic_, (driver.Unlock env (lockFunc (s.log .lock)).2).1 = some panic_ →
      (RunInLock env driver timeoutSecs lockFunc s).1 = some panic_) ∧
    (driver ≠ .postgres → (driver.Unlock env (lockFunc (s.log .lock)).2).1 = none) := by
  have hcase : selectCase env timeoutSecs s.calls (driver.Lock env s).1 = .lockChan := by
    rw [selectCase_eq, hattempt, hlock]
    simp only [hbefore, true_or, if_true]
  rw [RunInLock_lockChan lockFunc hcase]
  refine ⟨rfl, ?_, ?_, ?_, fun h => Driver.Unlock_not_postgres h env _⟩
  · intro cs hcs
    simp only [Database.log] at hcs ⊢
    rw [hcs]
  · intro hnone
    simp only [hnone]
  · intro p hp
    simp only [hp]

/-- Witness for C12: the SQLite driver and a body that executes one
statement. -/
theorem RunInLock_acquired_witness :
    RunInLock (quietEnv (exampleFS [] "")) .sqlite 10 exampleBody emptyDatabase =
      (none, ⟨[], none, [.lock, .exec "body", .unlock]⟩) ∧
    (RunInLock (quietEnv (exampleFS [] "")) .sqlite 10 exampleBody emptyDatabase).2 =
      ((exampleBody (emptyDatabase.log .lock)).2).log .unlock :=
  ⟨by decide,
    (RunInLock_acquired (quietEnv (exampleFS [] "")) .sqlite 10 exampleBody emptyDatabase 0
      (by decide) (by decide) (by decide)).1⟩

/-- C12, counterexample to the claim as stated. With the Postgres driver,
`Lock` returns nil at once (before the deadline of ten seconds) and the body
returns nil, but the unlock statement fails: `Unlock` panics, and the outcome
of `RunInLock` is that panic and not the result of the body. -/
theorem RunInLock_unlock_panic_counterexample :
    unlockFails.lockAttempt emptyDatabase.calls = .returns 0 ∧
    (0 : Int) < lockDeadline 10 ∧
    (Driver.Lock .postgres unlockFails emptyDatabase).1 = none ∧
    (exampleBody (emptyDatabase.log .lock)).1 = none ∧
    RunInLock unlockFails .postgres 10 exampleBody emptyDatabase =
      (some (.goPanic "connection lost"), ⟨[], none, [.lock, .exec "body", .unlock]⟩) := by
  decide

/-- C13 (as amended). `RunInLock` never invokes the protected body without the
lock: unless `select` takes the case of the lock, which needs `Lock` to have
returned nil no later than the timer, the outcome is an error and the only
call made is `Lock` (no body, no `Unlock`). If `Lock` never returns,
`RunInLock` returns the timeout error when its timer fires, which for a
timeout between -9223372036 and 9223372036 seconds is after the configured
number of seconds (at once when that number is negative). And if `Lock`
returns an error before the timer fires, `RunInLock` returns that error
without invoking the body. -/
theorem RunInLock_without_lock (env : Env) (driver : Driver) (timeoutSecs : Int)
    (lockFunc : Database → Option Error × Database) (s : Database) :
    (selectCase env timeoutSecs s.calls (driver.Lock env s).1 ≠ .lockChan →
      ∃ err, RunInLock env driver timeoutSecs lockFunc s = (some err, s.log .lock)) ∧
    (selectCase env timeoutSecs s.calls (driver.Lock env s).1 = .lockChan →
      (driver.Lock env s).1 = none ∧
        ∃ nanos : Nat, env.lockAttempt s.calls = .returns nanos ∧
          (nanos : Int) ≤ lockDeadline timeoutSecs) ∧
    (env.lockAttempt s.calls = .blocks →
      RunInLock env driver timeoutSecs lockFunc s =
        (some (.lockTimeout timeoutSecs), s.log .lock) ∧
      selectElapsed env timeoutSecs s.calls = lockDeadline timeoutSecs) ∧
    (-9223372036 ≤ timeoutSecs → timeoutSecs ≤ 9223372036 →
      lockDeadline timeoutSecs = max 0 (1000000000 * timeoutSecs)) ∧
    (∀ (nanos : Nat) (err : Error), env.lockAttempt s.calls = .returns nanos →
      (nanos : Int) < lockDeadline timeoutSecs → (driver.Lock env s).1 = some err →
      RunInLock env driver timeoutSecs lockFunc s = (some err, s.log .lock)) := by
  refine ⟨?_, ?_, ?_, fun hlo hhi => lockDeadline_eq hlo hhi, ?_⟩
  · intro h
    rcases RunInLock_not_lockChan lockFunc h with ⟨_, h2⟩ | ⟨err, _, h2⟩
    · exact ⟨_, h2⟩
    · exact ⟨err, h2⟩
  · intro h
    rw [selectCase_eq] at h
    rcases hatt : env.lockAttempt s.calls with nanos | _
    · simp only [hatt] at h
      split_ifs at h with hwin
      · rcases hres : (driver.Lock env s).1 with _ | err
        · refine ⟨rfl, nanos, rfl, ?_⟩
          rcases hwin with h1 | ⟨h1, _⟩
          · exact le_of_lt h1
          · exact le_of_eq h1
        · simp [hres] at h
    · simp [hatt] at h
  · intro hblocks
    have hcase : selectCase env timeoutSecs s.calls (driver.Lock env s).1 = .timeAfter := by
      rw [selectCase_eq, hblocks]
    constructor
    · rcases RunInLock_not_lockChan lockFunc (by rw [hcase]; simp) with ⟨_, h2⟩ | ⟨err, h1, _⟩
      · exact h2
      · rw [hcase] at h1
        cases h1
    · simp only [selectElapsed, hblocks]
  · intro nanos err hatt hbefore hres
    have hcase : selectCase env timeoutSecs s.calls (driver.Lock env s).1 = .errChan err := by
      rw [selectCase_eq, hatt, hres]
      simp only [hbefore, true_or, if_true]
    rcases RunInLock_not_lockChan lockFunc (by rw [hcase]; simp) with ⟨h1, _⟩ | ⟨err2, h1, h2⟩
    · rw [hcase] at h1
      cases h1
    · rw [hcase] at h1
      injection h1 with h3
      rw [h3]
      exact h2

/-- Witness for C13: with a lock that never becomes available and a timeout of
five seconds, `RunInLock` returns the timeout error after five seconds, and
the only call is `Lock`. -/
theorem RunInLock_without_lock_witness :
    RunInLock lockBlocks .postgres 5 exampleBody emptyDatabase =
      (some (.lockTimeout 5), ⟨[], none, [.lock]⟩) ∧
    selectElapsed lockBlocks 5 emptyDatabase.calls = 5000000000 ∧
    (lockBlocks.lockAttempt emptyDatabase.calls = .blocks →
      RunInLock lockBlocks .postgres 5 exampleBody emptyDatabase =
        (some (.lockTimeout 5), emptyDatabase.log .lock) ∧
      selectElapsed lockBlocks 5 emptyDatabase.calls = lockDeadline 5) :=
  ⟨by decide, by decide,
    (RunInLock_without_lock lockBlocks .postgres 5 exampleBody emptyDatabase).2.2.1⟩

/-- C13, counterexample to the claim as stated. With a timeout of one second
and a `Lock` that returns an error after two seconds, `RunInLock` returns the
timeout error, not the error of `Lock`. And with a timeout of 9223372037
seconds the duration of the timer overflows: when `Lock` never returns, the
timeout error is returned at once and not after that number of seconds. -/
theorem RunInLock_late_error_counterexample :
    (lockFailsLate.lockAttempt emptyDatabase.calls = .returns 2000000000 ∧
      (Driver.Lock .postgres lockFailsLate emptyDatabase).1 =
        some (.external "connection lost") ∧
      RunInLock lockFailsLate .postgres 1 exampleBody emptyDatabase =
        (some (.lockTimeout 1), ⟨[], none, [.lock]⟩)) ∧
    (lockBlocks.lockAttempt emptyDatabase.calls = .blocks ∧
      RunInLock lockBlocks .postgres 9223372037 exampleBody emptyDatabase =
        (some (.lockTimeout 9223372037), ⟨[], none, [.lock]⟩) ∧
      selectElapsed lockBlocks 9223372037 emptyDatabase.calls = 0) := by
  decide

/-! ### The first failure in `Migrate` -/

theorem Driver.Unlock_some {driver : Driver} {env : Env} {s : Database} {panic_ : Error}
    (h : (driver.Unlock env s).1 = some panic_) :
    driver = .postgres ∧ ∃ msg, panic_ = .goPanic msg := by
  cases driver
  · simp [Driver.Unlock] at h
  · refine ⟨rfl, ?_⟩
    simp only [Driver.Unlock, issue] at h
    rcases hf : env.fault s.calls .unlock with _ | msg
    · simp [hf] at h
    · simp only [hf, Option.map, Option.some.injEq] at h
      exact ⟨msg, h.symm⟩
  · simp [Driver.Unlock] at h

/-- C2 (as amended). Take a run of `Migrate` that reaches the loop (the files
are discovered, the database is opened, the lock is taken and the applied
versions are read) in which the files before `k` are processed without error
and the pending file `k` is the first to fail: its transaction begins, its up
body or its ledger insert fails with `e`, and the rollback succeeds. Then
`Migrate` returns `e`, unless the deferred `Unlock` panics (only the Postgres
driver's does), in which case the outcome is that panic; the ledger is exactly
what the files before `k` left: the rows of the pending files before `k`
remain recorded and the transaction of `k` adds none, so there is no row for
the version of `k` unless that version was recorded before (by another
project or by an earlier pending file with the same version prefix); and
after the files before `k` the only calls are `Begin`, the up body of `k`, the
insert of its version, `Rollback` and `Unlock`, so no later file is executed
or recorded. -/
theorem migrate_first_failure (env : Env) (db : DB) (secs : Int) (pre post : List String)
    (k : String) (s sO sS s1 t s2 : Database) (drv : Driver) (applied : List String)
    (m : StrMap) (e : Error)
    (hfiles : findMigrationFiles env.fs db.migrationsDir migrateRegexp = .ok (pre ++ k :: post))
    (hopen : openDatabaseForMigration env db s = (.ok drv, sO))
    (hlock : selectCase env secs sO.calls (drv.Lock env sO).1 = .lockChan)
    (hsel : SelectMigrations env (-1) db.project (sO.log .lock) = (.ok applied, sS))
    (hpre : migrateFiles env db applied pre sS = (none, s1))
    (hk : Row.mk (migrationVersion k) db.project ∉ s.ledger)
    (hparse : parseMigration env.fs (filepathJoin db.migrationsDir k) = .ok m)
    (hbegin : dbBegin env s1 = (none, t))
    (hfail : migrateTx env db (migrationVersion k) m t = (some e, s2))
    (hrollback : (dbRollback env s2).1 = none) :
    ∃ r s', Migrate env db secs s = (r, s') ∧
      (r = some e ∨ (drv = .postgres ∧ ∃ msg, r = some (.goPanic msg))) ∧
      (drv ≠ .postgres → r = some e) ∧
      ((∀ h, env.fault h .unlock = none) → r = some e) ∧
      s'.ledger = s1.ledger ∧
      s'.ledger = s.ledger ++
        (pendingFiles db s pre).map (fun f => Row.mk (migrationVersion f) db.project) ∧
      ((∀ q, Row.mk (migrationVersion k) q ∉ s.ledger) →
        (∀ f ∈ pendingFiles db s pre, migrationVersion f ≠ migrationVersion k) →
        ∀ q, Row.mk (migrationVersion k) q ∉ s'.ledger) ∧
      ∃ cs, s'.calls = s1.calls ++ cs ∧
        ∀ c ∈ cs, c = .begin ∨ c = .exec (m.get "up") ∨
          c = .insertMigration (migrationVersion k) db.project ∨ c = .rollback ∨
          c = .unlock := by
  have qopen := openDatabaseForMigration_quiet env db s
  rw [hopen] at qopen
  have hsS : sS = (sO.log .lock).log (.selectMigrations (-1) db.project) := by
    have := SelectMigrations_snd env (-1) db.project (sO.log .lock)
    rw [hsel] at this
    exact this
  have hledS : sS.ledger = s.ledger := by
    rw [hsS]
    exact qopen.1
  have happ : ∀ v, v ∈ applied ↔ Row.mk v db.project ∈ s.ledger := by
    intro v
    have h1 := @SelectMigrations_all env db.project (sO.log .lock) applied (by rw [hsel]) v
    rw [h1]
    show Row.mk v db.project ∈ sO.ledger ↔ _
    rw [qopen.1]
  have hk2 : migrationVersion k ∉ applied := fun h => hk ((happ _).mp h)
  obtain ⟨sF, hloop, hl1, hl2, hno, cs, hcs, hcsmem⟩ :=
    migrateFiles_first_failure env db applied pre post k sS s1 t s2 m e hpre hk2 hparse hbegin
      hfail hrollback
  rw [pendingFiles_eq pre happ, hledS] at hl2
  have hlen : ¬ (pre ++ k :: post).length = 0 := by simp
  have hlocked : migrateLocked env db (pre ++ k :: post) (sO.log .lock) = (some e, sF) := by
    simp only [migrateLocked, hsel, hloop]
  have hrun : Migrate env db secs s =
      (match (drv.Unlock env sF).1 with
        | some panic_ => some panic_
        | none => some e,
        sF.log .unlock) := by
    simp only [Migrate, hfiles, hlen, if_false, hopen]
    rw [RunInLock_lockChan _ hlock, hlocked]
  refine ⟨_, _, hrun, ?_, ?_, ?_, hl1, hl2, ?_, ?_⟩
  · rcases hu : (drv.Unlock env sF).1 with _ | p
    · exact Or.inl rfl
    · obtain ⟨hd, msg, hp⟩ := Driver.Unlock_some hu
      exact Or.inr ⟨hd, msg, by rw [hp]⟩
  · intro hd
    rw [Driver.Unlock_not_postgres hd]
  · intro hfault
    rcases hu : (drv.Unlock env sF).1 with _ | p
    · rfl
    · exfalso
      cases drv
      · simp [Driver.Unlock] at hu
      · simp [Driver.Unlock, issue, hfault] at hu
      · simp [Driver.Unlock] at hu
  · intro hnone hne q hq
    have hq2 : Row.mk (migrationVersion k) q ∈ sF.ledger := hq
    rw [hl2] at hq2
    rcases List.mem_append.mp hq2 with h1 | h1
    · exact hnone q h1
    · simp only [List.mem_map] at h1
      obtain ⟨f, hf, hrow⟩ := h1
      injection hrow with hv _
      exact hne f hf hv
  · refine ⟨cs ++ [.unlock], by simp [Database.log, hcs], ?_⟩
    intro c hc
    rcases List.mem_append.mp hc with h1 | h1
    · rcases hcsmem c h1 with h2 | h2 | h2 | h2
      · exact Or.inl h2
      · exact Or.inr (Or.inl h2)
      · exact Or.inr (Or.inr (Or.inl h2))
      · exact Or.inr (Or.inr (Or.inr (Or.inl h2)))
    · simp only [List.mem_singleton] at h1
      exact Or.inr (Or.inr (Or.inr (Or.inr h1)))

/-- Witness for C2: of the three pending files `01_a.sql`, `02_b.sql` and
`03_c.sql`, the second fails. `Migrate` returns its failure, the row of `01`
remains, there is no row for `02`, and `03_c.sql` is neither executed nor
recorded. -/
theorem migrate_first_failure_witness :
    Migrate secondBodyFails exampleDB 10 emptyDatabase =
      (some (.external "syntax error"),
        ⟨[⟨"01", "p"⟩], none,
          [.open_, .createTable, .probeProject, .lock, .selectMigrations (-1) "p",
            .begin, .exec "\nA\n", .insertMigration "01" "p", .commit,
            .begin, .exec "\nB\n", .rollback, .unlock]⟩) ∧
    ∃ r s', Migrate secondBodyFails exampleDB 10 emptyDatabase = (r, s') ∧
      r = some (.external "syntax error") ∧
      s'.ledger = emptyDatabase.ledger ++
        (pendingFiles exampleDB emptyDatabase ["01_a.sql"]).map
          (fun f => Row.mk (migrationVersion f) exampleDB.project) ∧
      ∀ q, Row.mk (migrationVersion "02_b.sql") q ∉ s'.ledger := by
  refine ⟨by decide, ?_⟩
  obtain ⟨r, s', hrun, _, hr, _, _, hl, hno, _⟩ :=
    migrate_first_failure secondBodyFails exampleDB 10 ["01_a.sql"] ["03_c.sql"] "02_b.sql"
      emptyDatabase
      ⟨[], none, [.open_, .createTable, .probeProject]⟩
      ⟨[], none, [.open_, .createTable, .probeProject, .lock, .selectMigrations (-1) "p"]⟩
      ⟨[⟨"01", "p"⟩], none,
        [.open_, .createTable, .probeProject, .lock, .selectMigrations (-1) "p",
          .begin, .exec "\nA\n", .insertMigration "01" "p", .commit]⟩
      ⟨[⟨"01", "p"⟩], some [⟨"01", "p"⟩],
        [.open_, .createTable, .probeProject, .lock, .selectMigrations (-1) "p",
          .begin, .exec "\nA\n", .insertMigration "01" "p", .commit, .begin]⟩
      ⟨[⟨"01", "p"⟩], some [⟨"01", "p"⟩],
        [.open_, .createTable, .probeProject, .lock, .selectMigrations (-1) "p",
          .begin, .exec "\nA\n", .insertMigration "01" "p", .commit, .begin, .exec "\nB\n"]⟩
      .sqlite [] [("up", "\nB\n")] (.external "syntax error")
      (by decide) (by decide) (by decide) (by decide) (by decide) (by decide) (by decide)
      (by decide) (by decide) (by decide)
  exact ⟨r, s', hrun, hr (by decide), hl,
    hno (fun q h => by cases h) (by decide)⟩

end Dbmate
